import Mathlib

/-!
Verification of the `graph-store` repository: a weighted, directed graph
data structure (`a-star.go`, directed part), an A* shortest-path search
(`a-star.go`, search part), and gob serialization glue (`gob.go`).

The embedding models Go heap pointers by giving every vertex a `Nat`
identity (`id`) that is allocated freshly (from `Graph.nextId`) when the
vertex is created and never reused; Go's `map[*Vertex]int` edge maps
become association lists keyed by those identities, and Go's
`map[string]*Vertex` registry becomes a list of vertices looked up by
their `key` field.  Go map updates/deletes become association-list
overwrite/filter.  Locking is dropped: every public operation of the
source runs from lock-acquisition to lock-release without interleaving,
so its sequential semantics is exactly what is modelled here.
-/

set_option maxHeartbeats 1000000

/-- A vertex of the directed graph (`Vertex` in `a-star.go`): a key, a
stored value (`interface{}` becomes the type parameter `V`), and the two
edge maps, keyed by the identity (`id`, modelling the Go pointer) of the
neighbor vertex and storing the edge weight.  The `sync.RWMutex` field is
dropped (see module comment). -/
structure Vertex (V : Type) where
  id : Nat
  key : String
  value : V
  outgoingEdges : List (Nat × Int)
  incomingEdges : List (Nat × Int)
  deriving DecidableEq

/-- The graph (`Graph` in `a-star.go`): the registry of vertices, plus
the allocator counter for fresh vertex identities. -/
structure Graph (V : Type) where
  verts : List (Vertex V)
  nextId : Nat
  deriving DecidableEq

variable {V : Type}

/-- Lookup in a Go edge map `map[*Vertex]int`, keyed by vertex identity. -/
def edgeFind (m : List (Nat × Int)) (k : Nat) : Option Int :=
  (m.find? (fun p => p.1 == k)).map (fun p => p.2)

/-- Go map assignment `m[k] = w`: overwrite if present, append otherwise. -/
def edgeSet (m : List (Nat × Int)) (k : Nat) (w : Int) : List (Nat × Int) :=
  if m.any (fun p => p.1 == k) then m.map (fun p => if p.1 == k then (k, w) else p)
  else m ++ [(k, w)]

/-- Go map deletion `delete(m, k)` on an edge map. -/
def edgeDel (m : List (Nat × Int)) (k : Nat) : List (Nat × Int) :=
  m.filter (fun p => !(p.1 == k))

/-- `New()` in `a-star.go`: the empty graph. -/
def Graph.empty : Graph V := ⟨[], 0⟩

/-- The internal, lock-free `Graph.get` of `a-star.go`: resolve a key to
its vertex (`nil`, i.e. `none`, if absent). -/
def Graph.getV (g : Graph V) (key : String) : Option (Vertex V) :=
  g.verts.find? (fun v => v.key == key)

/-- `Graph.Set` of `a-star.go`: create a fresh vertex with empty edge
maps if the key is absent, otherwise update the value in place. -/
def Graph.set (g : Graph V) (key : String) (value : V) : Graph V :=
  match g.getV key with
  | none => ⟨g.verts ++ [⟨g.nextId, key, value, [], []⟩], g.nextId + 1⟩
  | some _ =>
      ⟨g.verts.map (fun v => if v.key == key then { v with value := value } else v), g.nextId⟩

/-- The first neighbor pass of `Graph.Delete`: a vertex listed in the
deleted vertex's incoming map loses the deleted vertex from its outgoing
map. -/
def stripOut (vid : Nat) (inc : List (Nat × Int)) (n : Vertex V) : Vertex V :=
  if inc.any (fun p => p.1 == n.id) then
    { n with outgoingEdges := edgeDel n.outgoingEdges vid }
  else n

/-- The second neighbor pass of `Graph.Delete`: a vertex listed in the
deleted vertex's (possibly already stripped) outgoing map loses the
deleted vertex from its incoming map. -/
def stripIn (vid : Nat) (out1 : List (Nat × Int)) (n : Vertex V) : Vertex V :=
  if out1.any (fun p => p.1 == n.id) then
    { n with incomingEdges := edgeDel n.incomingEdges vid }
  else n

/-- `Graph.Delete` of `a-star.go`: return `false` if the key is unknown;
otherwise strip the back-reference to the vertex from every neighbor
listed in its incoming map (their outgoing maps) and in its outgoing map
(their incoming maps), then remove the vertex from the registry.  The
second pass reads the vertex's outgoing map after the first pass, exactly
as the source rereads it through the pointer. -/
def Graph.delete (g : Graph V) (key : String) : Graph V × Bool :=
  match g.getV key with
  | none => (g, false)
  | some v =>
      let verts1 := g.verts.map (stripOut v.id v.incomingEdges)
      let vOut1 := (stripOut v.id v.incomingEdges v).outgoingEdges
      let verts2 := verts1.map (stripIn v.id vOut1)
      (⟨verts2.filter (fun n => !(n.key == key)), g.nextId⟩, true)

/-- The per-vertex effect of `Graph.Connect`: the vertex the `fromV`
pointer designates gains the outgoing edge, the one `toV` designates
gains the incoming edge, all others are untouched. -/
def connectUpd (fromV toV : Vertex V) (weight : Int) (v : Vertex V) : Vertex V :=
  let v1 := if v.id == fromV.id then
      { v with outgoingEdges := edgeSet v.outgoingEdges toV.id weight }
    else v
  if v.id == toV.id then
    { v1 with incomingEdges := edgeSet v1.incomingEdges fromV.id weight }
  else v1

/-- `Graph.Connect` of `a-star.go`: reject self-loops and unknown keys
(returning `false` with the graph untouched); otherwise write the weight
into the `from` vertex's outgoing map and the `to` vertex's incoming map. -/
def Graph.connect (g : Graph V) (fromKey toKey : String) (weight : Int) : Graph V × Bool :=
  if fromKey == toKey then (g, false)
  else
    match g.getV fromKey, g.getV toKey with
    | some fromV, some toV =>
        (⟨g.verts.map (connectUpd fromV toV weight), g.nextId⟩, true)
    | _, _ => (g, false)

/-- The per-vertex effect of `Graph.Disconnect`, mirroring `connectUpd`
with deletions. -/
def disconnectUpd (fromV toV : Vertex V) (v : Vertex V) : Vertex V :=
  let v1 := if v.id == fromV.id then
      { v with outgoingEdges := edgeDel v.outgoingEdges toV.id }
    else v
  if v.id == toV.id then
    { v1 with incomingEdges := edgeDel v1.incomingEdges fromV.id }
  else v1

/-- `Graph.Disconnect` of `a-star.go`: same validity rules as `Connect`;
delete the edge from both endpoint maps. -/
def Graph.disconnect (g : Graph V) (fromKey toKey : String) : Graph V × Bool :=
  if fromKey == toKey then (g, false)
  else
    match g.getV fromKey, g.getV toKey with
    | some fromV, some toV =>
        (⟨g.verts.map (disconnectUpd fromV toV), g.nextId⟩, true)
    | _, _ => (g, false)

/-- `Graph.IsConnected` of `a-star.go`: `(false, 0)` on equal or unknown
keys; otherwise scan whichever of `from.outgoingEdges` and
`to.incomingEdges` is strictly smaller for the opposite endpoint. -/
def Graph.isConnected (g : Graph V) (fromKey toKey : String) : Bool × Int :=
  if fromKey == toKey then (false, 0)
  else
    match g.getV fromKey, g.getV toKey with
    | some fromV, some toV =>
        if fromV.outgoingEdges.length < toV.incomingEdges.length then
          match edgeFind fromV.outgoingEdges toV.id with
          | some w => (true, w)
          | none => (false, 0)
        else
          match edgeFind toV.incomingEdges fromV.id with
          | some w => (true, w)
          | none => (false, 0)
    | _, _ => (false, 0)

/-- The states of the program: graphs built from `New()` by the four
mutating operations (`Set`, `Delete`, `Connect`, `Disconnect`). -/
inductive Reachable : Graph V → Prop
  | empty : Reachable Graph.empty
  | set {g : Graph V} (k : String) (val : V) : Reachable g → Reachable (g.set k val)
  | delete {g : Graph V} (k : String) : Reachable g → Reachable (g.delete k).1
  | connect {g : Graph V} (k k2 : String) (w : Int) : Reachable g → Reachable (g.connect k k2 w).1
  | disconnect {g : Graph V} (k k2 : String) : Reachable g → Reachable (g.disconnect k k2).1

/-! ### The indexed priority queue and the A* search

The `priorityQueue`/`Item` source file of the repository is not under
`src/`; only its caller (`ShortestPathWithHeuristic`) is.  The queue is
therefore modelled from the spec (section 4.4): a binary min-heap of
search items ordered by `priority`, where each tracked item's current
heap position lets an arbitrary item be removed.  The heap algorithms
are those of Go's `container/heap` package, which the caller invokes
(`heap.Push`, `heap.Pop`, `heap.Remove`); the `index` field of an item
is represented by the item's position in the heap array (the list), kept
identical by performing exactly the `container/heap` swaps. -/

/-- Modelled from the spec: the transient A* search item (`Item`),
wrapping the vertex (its identity; `none` models the `nil` pointer), the
predecessor vertex, the accumulated true cost from the start, and the
priority (cost plus heuristic estimate).  The heap-position (`index`)
field is represented by the item's list position. -/
structure Item where
  v : Option Nat
  prev : Option Nat
  distanceFromStart : Int
  priority : Int
  deriving DecidableEq

/-- Modelled from the spec: `priorityQueue.Less`, comparing two heap
slots by item priority (`false` on an out-of-range index, which
`container/heap` never produces). -/
def lessAt (l : List Item) (a b : Nat) : Bool :=
  match l.get? a, l.get? b with
  | some x, some y => x.priority < y.priority
  | _, _ => false

/-- Modelled from the spec: `priorityQueue.Swap`, exchanging two heap
slots (identity on an out-of-range index). -/
def hswap (l : List Item) (i j : Nat) : List Item :=
  match l.get? i, l.get? j with
  | some a, some b => (l.set i b).set j a
  | _, _ => l

/-- `container/heap`'s `up` sift, with explicit fuel (the start index
bounds the number of parent steps, so `hup` below passes fuel `j`). -/
def hupF : Nat → List Item → Nat → List Item
  | 0, l, _ => l
  | fuel + 1, l, j =>
      if j == 0 then l
      else
        let i := (j - 1) / 2
        if lessAt l j i then hupF fuel (hswap l i j) i else l

/-- `container/heap`'s `up(h, j)`. -/
def hup (l : List Item) (j : Nat) : List Item := hupF j l j

/-- `container/heap`'s `down` sift, with explicit fuel (the heap bound
`n` bounds the number of child steps); returns the final index so the
caller can test whether the element moved. -/
def hdownF : Nat → List Item → Nat → Nat → List Item × Nat
  | 0, l, i, _ => (l, i)
  | fuel + 1, l, i, n =>
      let j1 := 2 * i + 1
      if j1 < n then
        let j := if j1 + 1 < n && lessAt l (j1 + 1) j1 then j1 + 1 else j1
        if lessAt l j i then hdownF fuel (hswap l i j) j n else (l, i)
      else (l, i)

/-- `container/heap`'s `down(h, i, n)`. -/
def hdown (l : List Item) (i n : Nat) : List Item × Nat := hdownF n l i n

/-- `heap.Push`: append the item, then sift it up. -/
def heapPush (l : List Item) (x : Item) : List Item :=
  hup (l ++ [x]) l.length

/-- `heap.Pop`: swap the root with the last slot, sift the new root
down within the shrunk bound, then remove and return the last slot. -/
def heapPop (l : List Item) : Option (Item × List Item) :=
  match l with
  | [] => none
  | _ :: _ =>
      let n := l.length - 1
      let l2 := (hdown (hswap l 0 n) 0 n).1
      match l2.getLast? with
      | some x => some (x, l2.dropLast)
      | none => none

/-- `heap.Remove(h, i)`: swap slot `i` with the last slot, restore heap
order around `i` (down, then up if it did not move), and drop the last
slot. -/
def heapRemove (l : List Item) (i : Nat) : List Item :=
  let n := l.length - 1
  let l1 :=
    if n ≠ i then
      let ls := hswap l i n
      let d := hdown ls i n
      if d.2 > i then d.1 else hup d.1 i
    else l
  l1.dropLast

/-- Dereference a vertex identity through the registry (the model of
following a `*Vertex` pointer); `none` models a pointer to an object no
longer in the registry, which reachable states never produce. -/
def Graph.findById (g : Graph V) (i : Nat) : Option (Vertex V) :=
  g.verts.find? (fun v => v.id == i)

/-- The key read `neighbor.key` used by the search and the encoder;
yields `""` on an identity the registry no longer holds (matching the
nil-safe `Key()` accessor; unreachable from valid states). -/
def Graph.keyOfId (g : Graph V) (i : Nat) : String :=
  ((g.findById i).map (fun v => v.key)).getD ""

/-- `current.GetOutgoing()` as used by the search loop: the outgoing
edge map of the vertex a (possibly nil) pointer designates, the empty
map when the pointer is nil. -/
def Graph.outgoingOf (g : Graph V) (cur : Option Nat) : List (Nat × Int) :=
  match cur with
  | none => []
  | some cid =>
      match g.findById cid with
      | none => []
      | some cv => cv.outgoingEdges

/-- Lookup in the open/closed bookkeeping maps (`map[*Vertex]*Item`),
keyed by the (possibly nil) vertex pointer. -/
def olookup (l : List (Option Nat × Item)) (k : Option Nat) : Option Item :=
  (l.find? (fun p => p.1 == k)).map (fun p => p.2)

/-- Go map deletion on the open list. -/
def odel (l : List (Option Nat × Item)) (k : Option Nat) : List (Option Nat × Item) :=
  l.filter (fun p => !(p.1 == k))

/-- Go map assignment on the open list. -/
def oset (l : List (Option Nat × Item)) (k : Option Nat) (it : Item) :
    List (Option Nat × Item) :=
  if l.any (fun p => p.1 == k) then l.map (fun p => if p.1 == k then (k, it) else p)
  else l ++ [(k, it)]

/-- Path reconstruction of `ShortestPathWithHeuristic`: walk predecessor
links backward through the closed list, appending each key, yielding the
keys ordered end to start.  The fuel bounds the walk (the predecessor
chain of an actual search is acyclic and lies in the closed list; on the
fuel running out or a missing closed entry — where the source would not
terminate or would dereference nil — the keys collected so far are
returned). -/
def buildPath (g : Graph V) (closedL : List (Option Nat × Item)) :
    Option Nat → Nat → List String
  | _, 0 => []
  | none, _ => []
  | some cid, fuel + 1 =>
      let key := g.keyOfId cid
      match olookup closedL (some cid) with
      | none => [key]
      | some it => key :: buildPath g closedL it.prev fuel

/-- One neighbor-expansion step of the search loop body: skip closed
neighbors; skip open neighbors that already have a no-worse accumulated
cost; otherwise remove the stale open entry (via its heap index) if any,
and (re)insert the neighbor with the updated cost and priority. -/
def expandStep (g : Graph V) (endKey : String) (h : String → String → Int)
    (currentV : Option Nat) (distance : Int) (closedL : List (Option Nat × Item))
    (st : List Item × List (Option Nat × Item)) (p : Nat × Int) :
    List Item × List (Option Nat × Item) :=
  if (olookup closedL (some p.1)).isSome then st
  else
    let dtn := distance + p.2
    let q1 : Option (List Item) :=
      match olookup st.2 (some p.1) with
      | some md =>
          if md.distanceFromStart < dtn then none
          else some (heapRemove st.1 (st.1.findIdx (fun x => x == md)))
      | none => some st.1
    match q1 with
    | none => st
    | some q =>
        let it : Item := ⟨some p.1, currentV, dtn, dtn + h (g.keyOfId p.1) endKey⟩
        (heapPush q it, oset st.2 (some p.1) it)

/-- The main loop of `ShortestPathWithHeuristic`, with explicit fuel.
`none` covers the two situations the total model cannot step: fuel
exhaustion, and the nil-pointer dereference the source would hit if a
popped vertex were missing from the open list (neither occurs in an
actual run, as proved below). -/
def astarLoop (g : Graph V) (endV : Option Nat) (endKey : String)
    (h : String → String → Int) :
    Nat → List Item → List (Option Nat × Item) → List (Option Nat × Item) →
    Option (List String × Bool)
  | 0, _, _, _ => none
  | fuel + 1, queue, openL, closedL =>
      match heapPop queue with
      | none => some ([], false)
      | some (it, q1) =>
          let current := it.v
          match olookup openL current with
          | none => none
          | some citem =>
              let closed1 := (current, citem) :: closedL
              let open1 := odel openL current
              if current == endV then
                some (buildPath g closed1 current (closed1.length + 1), true)
              else
                let distance := citem.distanceFromStart
                let st := (g.outgoingOf current).foldl
                  (expandStep g endKey h current distance closed1) (q1, open1)
                astarLoop g endV endKey h fuel st.1 st.2 closed1

/-- `ShortestPathWithHeuristic` up to the `Option` wrapper: resolve the
start and end vertices (a missing key yields the nil pointer `none`),
seed the open set with the start item at cost 0, and run the loop.  The
fuel `g.verts.length + 2` is enough for any run (proved below): every
iteration moves a fresh vertex to the closed set. -/
def Graph.astarRun (g : Graph V) (startKey endKey : String)
    (h : String → String → Int) : Option (List String × Bool) :=
  let start := (g.getV startKey).map (fun v => v.id)
  let endV := (g.getV endKey).map (fun v => v.id)
  let item : Item := ⟨start, none, 0, 0⟩
  astarLoop g endV endKey h (g.verts.length + 2) (heapPush [] item) [(start, item)] []

/-- `Graph.ShortestPathWithHeuristic` of `a-star.go`. -/
def Graph.shortestPathWithHeuristic (g : Graph V) (startKey endKey : String)
    (h : String → String → Int) : List String × Bool :=
  (g.astarRun startKey endKey h).getD ([], false)

/-! ### Gob serialization (`gob.go`)

The `encoding/gob` byte codec is Go standard library (an external
collaborator per the spec); what `gob.go` contributes is the record
built by `GobEncode` and the rebuild performed by `GobDecode`, modelled
here with the record passed directly (the unexported `inv` field of
`graphGob` is never encoded by gob and is dead weight in the source, so
it is omitted). -/

/-- The exported payload of `graphGob` in `gob.go`: per-key values and
per-key outgoing edge lists (neighbor key to weight). -/
structure GraphGob (V : Type) where
  vertices : List (String × V)
  edges : List (String × List (String × Int))
  deriving DecidableEq

/-- `Graph.GobEncode` of `gob.go` up to the byte codec: record every
vertex's key/value pair, and its outgoing edges with the neighbor
pointers resolved to their keys. -/
def Graph.gobEncode (g : Graph V) : GraphGob V :=
  { vertices := g.verts.map (fun v => (v.key, v.value))
    edges := g.verts.map (fun v =>
      (v.key, v.outgoingEdges.map (fun p => (g.keyOfId p.1, p.2)))) }

/-- The inner edge loop of `Graph.GobDecode`: connect one source key to
each recorded neighbor, stopping with the explicit error of the source
as soon as a `Connect` reports failure. -/
def connectGroup (g : Graph V) (k : String) : List (String × Int) → Except String (Graph V)
  | [] => Except.ok g
  | (k2, w) :: rest =>
      let c := g.connect k k2 w
      if c.2 then connectGroup c.1 k rest else Except.error "invalid edge endpoints"

/-- The outer edge loop of `Graph.GobDecode`. -/
def connectEdges (g : Graph V) : List (String × List (String × Int)) → Except String (Graph V)
  | [] => Except.ok g
  | (k, ns) :: rest =>
      match connectGroup g k ns with
      | Except.error e => Except.error e
      | Except.ok g1 => connectEdges g1 rest

/-- `Graph.GobDecode` of `gob.go` up to the byte codec: `Set` every
recorded key/value pair into the receiver, then `Connect` every recorded
edge, failing with `"invalid edge endpoints"` on the first rejected
connection. -/
def Graph.gobDecode (g : Graph V) (rec : GraphGob V) : Except String (Graph V) :=
  let g1 := rec.vertices.foldl (fun acc kv => acc.set kv.1 kv.2) g
  connectEdges g1 rec.edges

/-- The directed-edge weights of a graph, observed through keys (used to
state the serialization round-trip). -/
def Graph.edgeWeight (g : Graph V) (k k2 : String) : Option Int :=
  match g.getV k, g.getV k2 with
  | some a, some b => edgeFind a.outgoingEdges b.id
  | _, _ => none

/-! ### Edge-map lemmas -/

theorem edgeFind_cons (p : Nat × Int) (m : List (Nat × Int)) (k : Nat) :
    edgeFind (p :: m) k = if p.1 = k then some p.2 else edgeFind m k := by
  by_cases h : p.1 = k
  · simp [edgeFind, List.find?_cons_of_pos, h]
  · simp only [edgeFind, h, if_false]
    rw [List.find?_cons_of_neg]
    simpa using h

theorem edgeFind_eq_none_iff (m : List (Nat × Int)) (k : Nat) :
    edgeFind m k = none ↔ ∀ p ∈ m, p.1 ≠ k := by
  simp [edgeFind, List.find?_eq_none]

theorem edgeFind_mem {m : List (Nat × Int)} {k : Nat} {w : Int}
    (h : edgeFind m k = some w) : (k, w) ∈ m := by
  simp only [edgeFind, Option.map_eq_some'] at h
  obtain ⟨p, hp, hw⟩ := h
  have hk : p.1 = k := by simpa using List.find?_some hp
  have hm := List.mem_of_find?_eq_some hp
  have hpk : p = (k, w) := by
    cases p
    simp_all
  rwa [hpk] at hm

theorem edgeFind_isSome_of_mem {m : List (Nat × Int)} {p : Nat × Int}
    (h : p ∈ m) : (edgeFind m p.1).isSome := by
  induction m with
  | nil => cases h
  | cons q m ih =>
      rcases List.mem_cons.1 h with rfl | h2
      · simp [edgeFind_cons]
      · rw [edgeFind_cons]
        by_cases hq : q.1 = p.1
        · simp [hq]
        · simpa [hq] using ih h2

theorem edgeFind_overwrite_other (m : List (Nat × Int)) (k k' : Nat) (w : Int)
    (h : k' ≠ k) :
    edgeFind (m.map (fun p => if p.1 == k then (k, w) else p)) k' = edgeFind m k' := by
  induction m with
  | nil => rfl
  | cons q m ih =>
      by_cases hq : q.1 = k
      · rw [List.map_cons, if_pos (by simpa using hq), edgeFind_cons, edgeFind_cons,
          if_neg (fun hc => h hc.symm), if_neg (fun hc => h (hq ▸ hc).symm)]
        exact ih
      · rw [List.map_cons, if_neg (by simpa using hq), edgeFind_cons, edgeFind_cons]
        by_cases hqk : q.1 = k'
        · simp [hqk]
        · simp only [hqk, if_false]
          exact ih

theorem edgeFind_overwrite_self (m : List (Nat × Int)) (k : Nat) (w : Int)
    (h : m.any (fun p => p.1 == k)) :
    edgeFind (m.map (fun p => if p.1 == k then (k, w) else p)) k = some w := by
  induction m with
  | nil => simp at h
  | cons q m ih =>
      by_cases hq : q.1 = k
      · rw [List.map_cons, if_pos (by simpa using hq), edgeFind_cons, if_pos rfl]
      · rw [List.map_cons, if_neg (by simpa using hq), edgeFind_cons, if_neg hq]
        refine ih ?_
        simp only [List.any_cons] at h
        simpa [hq] using h

theorem edgeFind_edgeSet_self (m : List (Nat × Int)) (k : Nat) (w : Int) :
    edgeFind (edgeSet m k w) k = some w := by
  unfold edgeSet
  by_cases hany : m.any (fun p => p.1 == k)
  · rw [if_pos hany]
    exact edgeFind_overwrite_self m k w hany
  · rw [if_neg hany]
    have hnone : (m.find? (fun p => p.1 == k)) = none := by
      rw [List.find?_eq_none]
      intro p hp hc
      exact hany (List.any_eq_true.2 ⟨p, hp, hc⟩)
    simp [edgeFind, List.find?_append, hnone]

theorem edgeFind_edgeSet_other (m : List (Nat × Int)) (k k' : Nat) (w : Int)
    (h : k' ≠ k) : edgeFind (edgeSet m k w) k' = edgeFind m k' := by
  unfold edgeSet
  by_cases hany : m.any (fun p => p.1 == k)
  · rw [if_pos hany]
    exact edgeFind_overwrite_other m k k' w h
  · rw [if_neg hany]
    have hsingle : (List.find? (fun p => p.1 == k') [(k, w)]) = none := by
      rw [List.find?_eq_none]
      intro p hp hc
      rcases List.mem_singleton.1 hp with rfl
      have hkk : k = k' := by simpa using hc
      exact h hkk.symm
    simp [edgeFind, List.find?_append, hsingle]

theorem edgeFind_edgeDel_self (m : List (Nat × Int)) (k : Nat) :
    edgeFind (edgeDel m k) k = none := by
  rw [edgeFind_eq_none_iff]
  intro p hp
  have := List.of_mem_filter hp
  simpa using this

theorem edgeFind_edgeDel_other (m : List (Nat × Int)) (k k' : Nat)
    (h : k' ≠ k) : edgeFind (edgeDel m k) k' = edgeFind m k' := by
  induction m with
  | nil => rfl
  | cons q m ih =>
      by_cases hq : q.1 = k
      · have : edgeDel (q :: m) k = edgeDel m k := by
          simp [edgeDel, List.filter_cons, hq]
        rw [this, edgeFind_cons, if_neg (fun hc => h (hc.symm.trans hq))]
        exact ih
      · have : edgeDel (q :: m) k = q :: edgeDel m k := by
          simp [edgeDel, List.filter_cons, hq]
        rw [this, edgeFind_cons, edgeFind_cons]
        by_cases hqk : q.1 = k'
        · simp [hqk]
        · simp only [hqk, if_false]
          exact ih

theorem mem_edgeSet {m : List (Nat × Int)} {k : Nat} {w : Int} {p : Nat × Int}
    (h : p ∈ edgeSet m k w) : p ∈ m ∨ p = (k, w) := by
  unfold edgeSet at h
  by_cases hany : m.any (fun q => q.1 == k)
  · rw [if_pos hany] at h
    rcases List.mem_map.1 h with ⟨q, hq, hqe⟩
    by_cases hqk : q.1 = k
    · right
      rw [← hqe, if_pos (by simpa using hqk)]
    · left
      rwa [← hqe, if_neg (by simpa using hqk)]
  · rw [if_neg hany] at h
    rcases List.mem_append.1 h with h | h
    · exact Or.inl h
    · exact Or.inr (List.mem_singleton.1 h)

theorem mem_edgeDel {m : List (Nat × Int)} {k : Nat} {p : Nat × Int}
    (h : p ∈ edgeDel m k) : p ∈ m ∧ p.1 ≠ k := by
  refine ⟨List.mem_of_mem_filter h, ?_⟩
  have := List.of_mem_filter h
  simpa using this

theorem edgeKeys_edgeSet_nodup {m : List (Nat × Int)} {k : Nat} {w : Int}
    (h : (m.map Prod.fst).Nodup) : ((edgeSet m k w).map Prod.fst).Nodup := by
  unfold edgeSet
  by_cases hany : m.any (fun q => q.1 == k)
  · rw [if_pos hany]
    have : (m.map (fun p => if p.1 == k then (k, w) else p)).map Prod.fst = m.map Prod.fst := by
      rw [List.map_map]
      refine List.map_congr_left ?_
      intro p _
      by_cases hp : p.1 = k
      · simp [hp]
      · simp [hp]
    rwa [this]
  · rw [if_neg hany, List.map_append]
    rw [List.nodup_append]
    refine ⟨h, by simp, ?_⟩
    intro x hx hy
    simp only [List.map_cons, List.map_nil, List.mem_singleton] at hy
    subst hy
    rcases List.mem_map.1 hx with ⟨q, hq, hqe⟩
    exact hany (List.any_eq_true.2 ⟨q, hq, by simpa using hqe⟩)

theorem edgeKeys_edgeDel_nodup {m : List (Nat × Int)} {k : Nat}
    (h : (m.map Prod.fst).Nodup) : ((edgeDel m k).map Prod.fst).Nodup :=
  ((List.filter_sublist m).map Prod.fst).nodup h

/-! ### Registry lemmas and the state invariant -/

theorem getV_some_key {g : Graph V} {k : String} {v : Vertex V}
    (h : g.getV k = some v) : v.key = k := by
  simpa using List.find?_some h

theorem getV_mem {g : Graph V} {k : String} {v : Vertex V}
    (h : g.getV k = some v) : v ∈ g.verts :=
  List.mem_of_find?_eq_some h

theorem getV_eq_none_iff {g : Graph V} {k : String} :
    g.getV k = none ↔ ∀ v ∈ g.verts, v.key ≠ k := by
  simp [Graph.getV, List.find?_eq_none]

theorem find?_key_of_mem {l : List (Vertex V)} (hnd : (l.map (fun v => v.key)).Nodup)
    {v : Vertex V} (hv : v ∈ l) : l.find? (fun u => u.key == v.key) = some v := by
  induction l with
  | nil => cases hv
  | cons a l ih =>
      rw [List.map_cons, List.nodup_cons] at hnd
      rcases List.mem_cons.1 hv with rfl | hv2
      · simp
      · have hne : ¬ a.key = v.key := by
          intro hc
          exact hnd.1 (by rw [hc]; exact List.mem_map_of_mem _ hv2)
        rw [List.find?_cons_of_neg _ (by simpa using hne)]
        exact ih hnd.2 hv2

theorem eq_of_id_eq {l : List (Vertex V)} (hnd : (l.map (fun v => v.id)).Nodup)
    {a b : Vertex V} (ha : a ∈ l) (hb : b ∈ l) (h : a.id = b.id) : a = b := by
  induction l with
  | nil => cases ha
  | cons c l ih =>
      rw [List.map_cons, List.nodup_cons] at hnd
      rcases List.mem_cons.1 ha with rfl | ha2
      · rcases List.mem_cons.1 hb with rfl | hb2
        · rfl
        · exact absurd (by rw [h]; exact List.mem_map_of_mem _ hb2) hnd.1
      · rcases List.mem_cons.1 hb with rfl | hb2
        · exact absurd (by rw [← h]; exact List.mem_map_of_mem _ ha2) hnd.1
        · exact ih hnd.2 ha2 hb2

theorem eq_of_key_eq {l : List (Vertex V)} (hnd : (l.map (fun v => v.key)).Nodup)
    {a b : Vertex V} (ha : a ∈ l) (hb : b ∈ l) (h : a.key = b.key) : a = b := by
  induction l with
  | nil => cases ha
  | cons c l ih =>
      rw [List.map_cons, List.nodup_cons] at hnd
      rcases List.mem_cons.1 ha with rfl | ha2
      · rcases List.mem_cons.1 hb with rfl | hb2
        · rfl
        · exact absurd (by rw [h]; exact List.mem_map_of_mem _ hb2) hnd.1
      · rcases List.mem_cons.1 hb with rfl | hb2
        · exact absurd (by rw [← h]; exact List.mem_map_of_mem _ ha2) hnd.1
        · exact ih hnd.2 ha2 hb2

/-- The state invariant maintained by every graph operation: registry
keys and vertex identities are unique, identities are below the
allocator counter, the two edge maps of any pair of vertices agree (the
spec's edge-symmetry invariant), edge maps reference only registered
vertices, have unique keys, and hold no self-loops. -/
structure GInv (g : Graph V) : Prop where
  keysNodup : (g.verts.map (fun v => v.key)).Nodup
  idsNodup : (g.verts.map (fun v => v.id)).Nodup
  idsLt : ∀ v ∈ g.verts, v.id < g.nextId
  symm : ∀ a ∈ g.verts, ∀ b ∈ g.verts,
    edgeFind a.outgoingEdges b.id = edgeFind b.incomingEdges a.id
  outReg : ∀ a ∈ g.verts, ∀ p ∈ a.outgoingEdges, ∃ b ∈ g.verts, b.id = p.1
  inReg : ∀ a ∈ g.verts, ∀ p ∈ a.incomingEdges, ∃ b ∈ g.verts, b.id = p.1
  outNodup : ∀ a ∈ g.verts, (a.outgoingEdges.map Prod.fst).Nodup
  inNodup : ∀ a ∈ g.verts, (a.incomingEdges.map Prod.fst).Nodup
  noSelfOut : ∀ a ∈ g.verts, ∀ p ∈ a.outgoingEdges, p.1 ≠ a.id
  noSelfIn : ∀ a ∈ g.verts, ∀ p ∈ a.incomingEdges, p.1 ≠ a.id

theorem ginv_empty : GInv (Graph.empty : Graph V) := by
  constructor <;> simp [Graph.empty]

theorem ginv_set {g : Graph V} (hg : GInv g) (k : String) (val : V) : GInv (g.set k val) := by
  unfold Graph.set
  cases hget : g.getV k with
  | none =>
      have hfresh : ∀ v ∈ g.verts, v.key ≠ k := getV_eq_none_iff.1 hget
      refine ⟨?_, ?_, ?_, ?_, ?_, ?_, ?_, ?_, ?_, ?_⟩
      · rw [List.map_append, List.nodup_append]
        refine ⟨hg.keysNodup, by simp, ?_⟩
        intro x hx hy
        simp only [List.map_cons, List.map_nil, List.mem_singleton] at hy
        subst hy
        rcases List.mem_map.1 hx with ⟨v, hv, hve⟩
        exact hfresh v hv hve
      · rw [List.map_append, List.nodup_append]
        refine ⟨hg.idsNodup, by simp, ?_⟩
        intro x hx hy
        simp only [List.map_cons, List.map_nil, List.mem_singleton] at hy
        subst hy
        rcases List.mem_map.1 hx with ⟨v, hv, hve⟩
        exact Nat.ne_of_lt (hve ▸ hg.idsLt v hv) rfl
      · intro v hv
        rcases List.mem_append.1 hv with hv | hv
        · exact Nat.lt_succ_of_lt (hg.idsLt v hv)
        · rcases List.mem_singleton.1 hv with rfl
          exact Nat.lt_succ_self _
      · intro a ha b hb
        rcases List.mem_append.1 ha with ha | ha <;>
          rcases List.mem_append.1 hb with hb | hb
        · exact hg.symm a ha b hb
        · rcases List.mem_singleton.1 hb with rfl
          have h1 : edgeFind a.outgoingEdges g.nextId = none := by
            rw [edgeFind_eq_none_iff]
            intro p hp
            rcases hg.outReg a ha p hp with ⟨c, hc, hce⟩
            exact fun hcon => Nat.ne_of_lt (hg.idsLt c hc) (hce.trans hcon)
          simpa using h1
        · rcases List.mem_singleton.1 ha with rfl
          have h1 : edgeFind b.incomingEdges g.nextId = none := by
            rw [edgeFind_eq_none_iff]
            intro p hp
            rcases hg.inReg b hb p hp with ⟨c, hc, hce⟩
            exact fun hcon => Nat.ne_of_lt (hg.idsLt c hc) (hce.trans hcon)
          rw [h1]
          rfl
        · rcases List.mem_singleton.1 ha with rfl
          rcases List.mem_singleton.1 hb with rfl
          rfl
      · intro a ha p hp
        rcases List.mem_append.1 ha with ha | ha
        · rcases hg.outReg a ha p hp with ⟨b, hb, hbe⟩
          exact ⟨b, List.mem_append_left _ hb, hbe⟩
        · rcases List.mem_singleton.1 ha with rfl
          cases hp
      · intro a ha p hp
        rcases List.mem_append.1 ha with ha | ha
        · rcases hg.inReg a ha p hp with ⟨b, hb, hbe⟩
          exact ⟨b, List.mem_append_left _ hb, hbe⟩
        · rcases List.mem_singleton.1 ha with rfl
          cases hp
      · intro a ha
        rcases List.mem_append.1 ha with ha | ha
        · exact hg.outNodup a ha
        · rcases List.mem_singleton.1 ha with rfl
          simp
      · intro a ha
        rcases List.mem_append.1 ha with ha | ha
        · exact hg.inNodup a ha
        · rcases List.mem_singleton.1 ha with rfl
          simp
      · intro a ha p hp
        rcases List.mem_append.1 ha with ha | ha
        · exact hg.noSelfOut a ha p hp
        · rcases List.mem_singleton.1 ha with rfl
          cases hp
      · intro a ha p hp
        rcases List.mem_append.1 ha with ha | ha
        · exact hg.noSelfIn a ha p hp
        · rcases List.mem_singleton.1 ha with rfl
          cases hp
  | some v0 =>
      have hmm : ∀ a, a ∈ (g.verts.map (fun v =>
          if v.key == k then { v with value := val } else v)) ↔
          ∃ b ∈ g.verts, a = if b.key == k then { b with value := val } else b := by
        intro a
        constructor
        · intro ha
          rcases List.mem_map.1 ha with ⟨b, hb, hbe⟩
          exact ⟨b, hb, hbe.symm⟩
        · rintro ⟨b, hb, rfl⟩
          exact List.mem_map_of_mem _ hb
      have hkey : ∀ b : Vertex V,
          (if b.key == k then { b with value := val } else b).key = b.key := by
        intro b
        by_cases hb : b.key == k <;> simp [hb]
      have hid : ∀ b : Vertex V,
          (if b.key == k then { b with value := val } else b).id = b.id := by
        intro b
        by_cases hb : b.key == k <;> simp [hb]
      have hout : ∀ b : Vertex V,
          (if b.key == k then { b with value := val } else b).outgoingEdges =
            b.outgoingEdges := by
        intro b
        by_cases hb : b.key == k <;> simp [hb]
      have hin : ∀ b : Vertex V,
          (if b.key == k then { b with value := val } else b).incomingEdges =
            b.incomingEdges := by
        intro b
        by_cases hb : b.key == k <;> simp [hb]
      refine ⟨?_, ?_, ?_, ?_, ?_, ?_, ?_, ?_, ?_, ?_⟩
      · rw [List.map_map]
        have : ((fun v : Vertex V => v.key) ∘ fun v =>
            if v.key == k then { v with value := val } else v) =
            fun v : Vertex V => v.key := funext (fun v => hkey v)
        rw [this]
        exact hg.keysNodup
      · rw [List.map_map]
        have : ((fun v : Vertex V => v.id) ∘ fun v =>
            if v.key == k then { v with value := val } else v) =
            fun v : Vertex V => v.id := funext (fun v => hid v)
        rw [this]
        exact hg.idsNodup
      · intro a ha
        rcases (hmm a).1 ha with ⟨b, hb, rfl⟩
        rw [hid]
        exact hg.idsLt b hb
      · intro a ha b hb
        rcases (hmm a).1 ha with ⟨a0, ha0, rfl⟩
        rcases (hmm b).1 hb with ⟨b0, hb0, rfl⟩
        rw [hout, hin, hid, hid]
        exact hg.symm a0 ha0 b0 hb0
      · intro a ha p hp
        rcases (hmm a).1 ha with ⟨a0, ha0, rfl⟩
        rw [hout] at hp
        rcases hg.outReg a0 ha0 p hp with ⟨b, hb, hbe⟩
        refine ⟨if b.key == k then { b with value := val } else b, ?_, ?_⟩
        · exact List.mem_map_of_mem _ hb
        · rw [hid]
          exact hbe
      · intro a ha p hp
        rcases (hmm a).1 ha with ⟨a0, ha0, rfl⟩
        rw [hin] at hp
        rcases hg.inReg a0 ha0 p hp with ⟨b, hb, hbe⟩
        refine ⟨if b.key == k then { b with value := val } else b, ?_, ?_⟩
        · exact List.mem_map_of_mem _ hb
        · rw [hid]
          exact hbe
      · intro a ha
        rcases (hmm a).1 ha with ⟨a0, ha0, rfl⟩
        rw [hout]
        exact hg.outNodup a0 ha0
      · intro a ha
        rcases (hmm a).1 ha with ⟨a0, ha0, rfl⟩
        rw [hin]
        exact hg.inNodup a0 ha0
      · intro a ha p hp
        rcases (hmm a).1 ha with ⟨a0, ha0, rfl⟩
        rw [hout] at hp
        rw [hid]
        exact hg.noSelfOut a0 ha0 p hp
      · intro a ha p hp
        rcases (hmm a).1 ha with ⟨a0, ha0, rfl⟩
        rw [hin] at hp
        rw [hid]
        exact hg.noSelfIn a0 ha0 p hp

theorem connectUpd_id (f t : Vertex V) (w : Int) (v : Vertex V) :
    (connectUpd f t w v).id = v.id := by
  unfold connectUpd
  by_cases h1 : v.id == f.id <;> by_cases h2 : v.id == t.id <;> simp [h1, h2]

theorem connectUpd_key (f t : Vertex V) (w : Int) (v : Vertex V) :
    (connectUpd f t w v).key = v.key := by
  unfold connectUpd
  by_cases h1 : v.id == f.id <;> by_cases h2 : v.id == t.id <;> simp [h1, h2]

theorem connectUpd_value (f t : Vertex V) (w : Int) (v : Vertex V) :
    (connectUpd f t w v).value = v.value := by
  unfold connectUpd
  by_cases h1 : v.id == f.id <;> by_cases h2 : v.id == t.id <;> simp [h1, h2]

theorem connectUpd_out (f t : Vertex V) (w : Int) (v : Vertex V) :
    (connectUpd f t w v).outgoingEdges =
      if v.id = f.id then edgeSet v.outgoingEdges t.id w else v.outgoingEdges := by
  unfold connectUpd
  by_cases h1 : v.id = f.id <;> by_cases h2 : v.id = t.id <;> simp_all

theorem connectUpd_in (f t : Vertex V) (w : Int) (v : Vertex V) :
    (connectUpd f t w v).incomingEdges =
      if v.id = t.id then edgeSet v.incomingEdges f.id w else v.incomingEdges := by
  unfold connectUpd
  by_cases h1 : v.id = f.id <;> by_cases h2 : v.id = t.id <;> simp_all

theorem disconnectUpd_id (f t : Vertex V) (v : Vertex V) :
    (disconnectUpd f t v).id = v.id := by
  unfold disconnectUpd
  by_cases h1 : v.id == f.id <;> by_cases h2 : v.id == t.id <;> simp [h1, h2]

theorem disconnectUpd_key (f t : Vertex V) (v : Vertex V) :
    (disconnectUpd f t v).key = v.key := by
  unfold disconnectUpd
  by_cases h1 : v.id == f.id <;> by_cases h2 : v.id == t.id <;> simp [h1, h2]

theorem disconnectUpd_value (f t : Vertex V) (v : Vertex V) :
    (disconnectUpd f t v).value = v.value := by
  unfold disconnectUpd
  by_cases h1 : v.id == f.id <;> by_cases h2 : v.id == t.id <;> simp [h1, h2]

theorem disconnectUpd_out (f t : Vertex V) (v : Vertex V) :
    (disconnectUpd f t v).outgoingEdges =
      if v.id = f.id then edgeDel v.outgoingEdges t.id else v.outgoingEdges := by
  unfold disconnectUpd
  by_cases h1 : v.id = f.id <;> by_cases h2 : v.id = t.id <;> simp_all

theorem disconnectUpd_in (f t : Vertex V) (v : Vertex V) :
    (disconnectUpd f t v).incomingEdges =
      if v.id = t.id then edgeDel v.incomingEdges f.id else v.incomingEdges := by
  unfold disconnectUpd
  by_cases h1 : v.id = f.id <;> by_cases h2 : v.id = t.id <;> simp_all

/-- `Connect` on distinct, present keys: the success case unfolded. -/
theorem connect_eq_of_valid {g : Graph V} {fromKey toKey : String} {w : Int}
    {fromV toV : Vertex V} (hne : fromKey ≠ toKey)
    (hf : g.getV fromKey = some fromV) (ht : g.getV toKey = some toV) :
    g.connect fromKey toKey w =
      (⟨g.verts.map (connectUpd fromV toV w), g.nextId⟩, true) := by
  unfold Graph.connect
  rw [if_neg (by simpa using hne), hf, ht]

theorem disconnect_eq_of_valid {g : Graph V} {fromKey toKey : String}
    {fromV toV : Vertex V} (hne : fromKey ≠ toKey)
    (hf : g.getV fromKey = some fromV) (ht : g.getV toKey = some toV) :
    g.disconnect fromKey toKey =
      (⟨g.verts.map (disconnectUpd fromV toV), g.nextId⟩, true) := by
  unfold Graph.disconnect
  rw [if_neg (by simpa using hne), hf, ht]

theorem ginv_connect {g : Graph V} (hg : GInv g) (fromKey toKey : String) (w : Int) :
    GInv (g.connect fromKey toKey w).1 := by
  by_cases hne : fromKey == toKey
  · unfold Graph.connect
    rw [if_pos hne]
    exact hg
  · cases hf : g.getV fromKey with
    | none =>
        unfold Graph.connect
        rw [if_neg hne, hf]
        exact hg
    | some fromV =>
        cases ht : g.getV toKey with
        | none =>
            unfold Graph.connect
            rw [if_neg hne, hf, ht]
            exact hg
        | some toV =>
            rw [connect_eq_of_valid (by simpa using hne) hf ht]
            have hfmem := getV_mem hf
            have htmem := getV_mem ht
            have hft : fromV.id ≠ toV.id := by
              intro hc
              have : fromV = toV := eq_of_id_eq hg.idsNodup hfmem htmem hc
              rw [this] at hf
              exact (by simpa using hne : fromKey ≠ toKey)
                ((getV_some_key hf).symm.trans (getV_some_key ht))
            have hmm : ∀ a, a ∈ g.verts.map (connectUpd fromV toV w) ↔
                ∃ b ∈ g.verts, a = connectUpd fromV toV w b := by
              intro a
              constructor
              · intro ha
                rcases List.mem_map.1 ha with ⟨b, hb, hbe⟩
                exact ⟨b, hb, hbe.symm⟩
              · rintro ⟨b, hb, rfl⟩
                exact List.mem_map_of_mem _ hb
            refine ⟨?_, ?_, ?_, ?_, ?_, ?_, ?_, ?_, ?_, ?_⟩
            · rw [List.map_map]
              have : ((fun v : Vertex V => v.key) ∘ connectUpd fromV toV w) =
                  fun v : Vertex V => v.key := funext (fun v => connectUpd_key _ _ _ v)
              rw [this]
              exact hg.keysNodup
            · rw [List.map_map]
              have : ((fun v : Vertex V => v.id) ∘ connectUpd fromV toV w) =
                  fun v : Vertex V => v.id := funext (fun v => connectUpd_id _ _ _ v)
              rw [this]
              exact hg.idsNodup
            · intro a ha
              rcases (hmm a).1 ha with ⟨b, hb, rfl⟩
              rw [connectUpd_id]
              exact hg.idsLt b hb
            · intro a ha b hb
              rcases (hmm a).1 ha with ⟨a0, ha0, rfl⟩
              rcases (hmm b).1 hb with ⟨b0, hb0, rfl⟩
              rw [connectUpd_out, connectUpd_in, connectUpd_id, connectUpd_id]
              by_cases hA : a0.id = fromV.id <;> by_cases hB : b0.id = toV.id
              · rw [if_pos hA, if_pos hB, hB, hA, edgeFind_edgeSet_self,
                  edgeFind_edgeSet_self]
              · rw [if_pos hA, if_neg hB,
                  edgeFind_edgeSet_other _ _ _ _ hB]
                exact hg.symm a0 ha0 b0 hb0
              · rw [if_neg hA, if_pos hB,
                  edgeFind_edgeSet_other _ _ _ _ hA]
                exact hg.symm a0 ha0 b0 hb0
              · rw [if_neg hA, if_neg hB]
                exact hg.symm a0 ha0 b0 hb0
            · intro a ha p hp
              rcases (hmm a).1 ha with ⟨a0, ha0, rfl⟩
              rw [connectUpd_out] at hp
              have hreg : ∃ b ∈ g.verts, b.id = p.1 := by
                by_cases hA : a0.id = fromV.id
                · rw [if_pos hA] at hp
                  rcases mem_edgeSet hp with hp | rfl
                  · exact hg.outReg a0 ha0 p hp
                  · exact ⟨toV, htmem, rfl⟩
                · rw [if_neg hA] at hp
                  exact hg.outReg a0 ha0 p hp
              rcases hreg with ⟨b, hb, hbe⟩
              exact ⟨connectUpd fromV toV w b, List.mem_map_of_mem _ hb,
                (connectUpd_id _ _ _ b).trans hbe⟩
            · intro a ha p hp
              rcases (hmm a).1 ha with ⟨a0, ha0, rfl⟩
              rw [connectUpd_in] at hp
              have hreg : ∃ b ∈ g.verts, b.id = p.1 := by
                by_cases hA : a0.id = toV.id
                · rw [if_pos hA] at hp
                  rcases mem_edgeSet hp with hp | rfl
                  · exact hg.inReg a0 ha0 p hp
                  · exact ⟨fromV, hfmem, rfl⟩
                · rw [if_neg hA] at hp
                  exact hg.inReg a0 ha0 p hp
              rcases hreg with ⟨b, hb, hbe⟩
              exact ⟨connectUpd fromV toV w b, List.mem_map_of_mem _ hb,
                (connectUpd_id _ _ _ b).trans hbe⟩
            · intro a ha
              rcases (hmm a).1 ha with ⟨a0, ha0, rfl⟩
              rw [connectUpd_out]
              by_cases hA : a0.id = fromV.id
              · rw [if_pos hA]
                exact edgeKeys_edgeSet_nodup (hg.outNodup a0 ha0)
              · rw [if_neg hA]
                exact hg.outNodup a0 ha0
            · intro a ha
              rcases (hmm a).1 ha with ⟨a0, ha0, rfl⟩
              rw [connectUpd_in]
              by_cases hA : a0.id = toV.id
              · rw [if_pos hA]
                exact edgeKeys_edgeSet_nodup (hg.inNodup a0 ha0)
              · rw [if_neg hA]
                exact hg.inNodup a0 ha0
            · intro a ha p hp
              rcases (hmm a).1 ha with ⟨a0, ha0, rfl⟩
              rw [connectUpd_out] at hp
              rw [connectUpd_id]
              by_cases hA : a0.id = fromV.id
              · rw [if_pos hA] at hp
                rcases mem_edgeSet hp with hp | rfl
                · exact hg.noSelfOut a0 ha0 p hp
                · rw [hA]
                  exact fun hc => hft hc.symm
              · rw [if_neg hA] at hp
                exact hg.noSelfOut a0 ha0 p hp
            · intro a ha p hp
              rcases (hmm a).1 ha with ⟨a0, ha0, rfl⟩
              rw [connectUpd_in] at hp
              rw [connectUpd_id]
              by_cases hA : a0.id = toV.id
              · rw [if_pos hA] at hp
                rcases mem_edgeSet hp with hp | rfl
                · exact hg.noSelfIn a0 ha0 p hp
                · rw [hA]
                  exact hft
              · rw [if_neg hA] at hp
                exact hg.noSelfIn a0 ha0 p hp

theorem ginv_disconnect {g : Graph V} (hg : GInv g) (fromKey toKey : String) :
    GInv (g.disconnect fromKey toKey).1 := by
  by_cases hne : fromKey == toKey
  · unfold Graph.disconnect
    rw [if_pos hne]
    exact hg
  · cases hf : g.getV fromKey with
    | none =>
        unfold Graph.disconnect
        rw [if_neg hne, hf]
        exact hg
    | some fromV =>
        cases ht : g.getV toKey with
        | none =>
            unfold Graph.disconnect
            rw [if_neg hne, hf, ht]
            exact hg
        | some toV =>
            rw [disconnect_eq_of_valid (by simpa using hne) hf ht]
            have hmm : ∀ a, a ∈ g.verts.map (disconnectUpd fromV toV) ↔
                ∃ b ∈ g.verts, a = disconnectUpd fromV toV b := by
              intro a
              constructor
              · intro ha
                rcases List.mem_map.1 ha with ⟨b, hb, hbe⟩
                exact ⟨b, hb, hbe.symm⟩
              · rintro ⟨b, hb, rfl⟩
                exact List.mem_map_of_mem _ hb
            refine ⟨?_, ?_, ?_, ?_, ?_, ?_, ?_, ?_, ?_, ?_⟩
            · rw [List.map_map]
              have : ((fun v : Vertex V => v.key) ∘ disconnectUpd fromV toV) =
                  fun v : Vertex V => v.key := funext (fun v => disconnectUpd_key _ _ v)
              rw [this]
              exact hg.keysNodup
            · rw [List.map_map]
              have : ((fun v : Vertex V => v.id) ∘ disconnectUpd fromV toV) =
                  fun v : Vertex V => v.id := funext (fun v => disconnectUpd_id _ _ v)
              rw [this]
              exact hg.idsNodup
            · intro a ha
              rcases (hmm a).1 ha with ⟨b, hb, rfl⟩
              rw [disconnectUpd_id]
              exact hg.idsLt b hb
            · intro a ha b hb
              rcases (hmm a).1 ha with ⟨a0, ha0, rfl⟩
              rcases (hmm b).1 hb with ⟨b0, hb0, rfl⟩
              rw [disconnectUpd_out, disconnectUpd_in, disconnectUpd_id, disconnectUpd_id]
              by_cases hA : a0.id = fromV.id <;> by_cases hB : b0.id = toV.id
              · rw [if_pos hA, if_pos hB, hB, hA, edgeFind_edgeDel_self,
                  edgeFind_edgeDel_self]
              · rw [if_pos hA, if_neg hB,
                  edgeFind_edgeDel_other _ _ _ hB]
                exact hg.symm a0 ha0 b0 hb0
              · rw [if_neg hA, if_pos hB,
                  edgeFind_edgeDel_other _ _ _ hA]
                exact hg.symm a0 ha0 b0 hb0
              · rw [if_neg hA, if_neg hB]
                exact hg.symm a0 ha0 b0 hb0
            · intro a ha p hp
              rcases (hmm a).1 ha with ⟨a0, ha0, rfl⟩
              rw [disconnectUpd_out] at hp
              have hreg : ∃ b ∈ g.verts, b.id = p.1 := by
                by_cases hA : a0.id = fromV.id
                · rw [if_pos hA] at hp
                  exact hg.outReg a0 ha0 p (mem_edgeDel hp).1
                · rw [if_neg hA] at hp
                  exact hg.outReg a0 ha0 p hp
              rcases hreg with ⟨b, hb, hbe⟩
              exact ⟨disconnectUpd fromV toV b, List.mem_map_of_mem _ hb,
                (disconnectUpd_id _ _ b).trans hbe⟩
            · intro a ha p hp
              rcases (hmm a).1 ha with ⟨a0, ha0, rfl⟩
              rw [disconnectUpd_in] at hp
              have hreg : ∃ b ∈ g.verts, b.id = p.1 := by
                by_cases hA : a0.id = toV.id
                · rw [if_pos hA] at hp
                  exact hg.inReg a0 ha0 p (mem_edgeDel hp).1
                · rw [if_neg hA] at hp
                  exact hg.inReg a0 ha0 p hp
              rcases hreg with ⟨b, hb, hbe⟩
              exact ⟨disconnectUpd fromV toV b, List.mem_map_of_mem _ hb,
                (disconnectUpd_id _ _ b).trans hbe⟩
            · intro a ha
              rcases (hmm a).1 ha with ⟨a0, ha0, rfl⟩
              rw [disconnectUpd_out]
              by_cases hA : a0.id = fromV.id
              · rw [if_pos hA]
                exact edgeKeys_edgeDel_nodup (hg.outNodup a0 ha0)
              · rw [if_neg hA]
                exact hg.outNodup a0 ha0
            · intro a ha
              rcases (hmm a).1 ha with ⟨a0, ha0, rfl⟩
              rw [disconnectUpd_in]
              by_cases hA : a0.id = toV.id
              · rw [if_pos hA]
                exact edgeKeys_edgeDel_nodup (hg.inNodup a0 ha0)
              · rw [if_neg hA]
                exact hg.inNodup a0 ha0
            · intro a ha p hp
              rcases (hmm a).1 ha with ⟨a0, ha0, rfl⟩
              rw [disconnectUpd_out] at hp
              rw [disconnectUpd_id]
              by_cases hA : a0.id = fromV.id
              · rw [if_pos hA] at hp
                exact hg.noSelfOut a0 ha0 p (mem_edgeDel hp).1
              · rw [if_neg hA] at hp
                exact hg.noSelfOut a0 ha0 p hp
            · intro a ha p hp
              rcases (hmm a).1 ha with ⟨a0, ha0, rfl⟩
              rw [disconnectUpd_in] at hp
              rw [disconnectUpd_id]
              by_cases hA : a0.id = toV.id
              · rw [if_pos hA] at hp
                exact hg.noSelfIn a0 ha0 p (mem_edgeDel hp).1
              · rw [if_neg hA] at hp
                exact hg.noSelfIn a0 ha0 p hp

theorem stripOut_id (vid : Nat) (inc : List (Nat × Int)) (n : Vertex V) :
    (stripOut vid inc n).id = n.id := by
  unfold stripOut
  split <;> rfl

theorem stripOut_key (vid : Nat) (inc : List (Nat × Int)) (n : Vertex V) :
    (stripOut vid inc n).key = n.key := by
  unfold stripOut
  split <;> rfl

theorem stripOut_value (vid : Nat) (inc : List (Nat × Int)) (n : Vertex V) :
    (stripOut vid inc n).value = n.value := by
  unfold stripOut
  split <;> rfl

theorem stripOut_in (vid : Nat) (inc : List (Nat × Int)) (n : Vertex V) :
    (stripOut vid inc n).incomingEdges = n.incomingEdges := by
  unfold stripOut
  split <;> rfl

theorem stripOut_out (vid : Nat) (inc : List (Nat × Int)) (n : Vertex V) :
    (stripOut vid inc n).outgoingEdges =
      if inc.any (fun p => p.1 == n.id) then edgeDel n.outgoingEdges vid
      else n.outgoingEdges := by
  unfold stripOut
  split <;> simp_all

theorem stripIn_id (vid : Nat) (out1 : List (Nat × Int)) (n : Vertex V) :
    (stripIn vid out1 n).id = n.id := by
  unfold stripIn
  split <;> rfl

theorem stripIn_key (vid : Nat) (out1 : List (Nat × Int)) (n : Vertex V) :
    (stripIn vid out1 n).key = n.key := by
  unfold stripIn
  split <;> rfl

theorem stripIn_value (vid : Nat) (out1 : List (Nat × Int)) (n : Vertex V) :
    (stripIn vid out1 n).value = n.value := by
  unfold stripIn
  split <;> rfl

theorem stripIn_out (vid : Nat) (out1 : List (Nat × Int)) (n : Vertex V) :
    (stripIn vid out1 n).outgoingEdges = n.outgoingEdges := by
  unfold stripIn
  split <;> rfl

theorem stripIn_in (vid : Nat) (out1 : List (Nat × Int)) (n : Vertex V) :
    (stripIn vid out1 n).incomingEdges =
      if out1.any (fun p => p.1 == n.id) then edgeDel n.incomingEdges vid
      else n.incomingEdges := by
  unfold stripIn
  split <;> simp_all

theorem delete_eq_of_found {g : Graph V} {key : String} {v : Vertex V}
    (hget : g.getV key = some v) :
    g.delete key =
      (⟨((g.verts.map (stripOut v.id v.incomingEdges)).map
          (stripIn v.id (stripOut v.id v.incomingEdges v).outgoingEdges)).filter
          (fun n => !(n.key == key)), g.nextId⟩, true) := by
  unfold Graph.delete
  rw [hget]

theorem delete_mem_iff {g : Graph V} {key : String} {v : Vertex V}
    (hget : g.getV key = some v) {n' : Vertex V} :
    n' ∈ (g.delete key).1.verts ↔
      ∃ n ∈ g.verts, ¬ n.key = key ∧
        n' = stripIn v.id (stripOut v.id v.incomingEdges v).outgoingEdges
          (stripOut v.id v.incomingEdges n) := by
  rw [delete_eq_of_found hget]
  constructor
  · intro h
    have hmem := List.mem_of_mem_filter h
    have hkey : ¬ n'.key = key := by
      have := List.of_mem_filter h
      simpa using this
    rcases List.mem_map.1 hmem with ⟨n1, hn1, hn1e⟩
    rcases List.mem_map.1 hn1 with ⟨n, hn, hne⟩
    refine ⟨n, hn, ?_, by rw [← hn1e, ← hne]⟩
    rw [← hne] at hn1e
    rw [← hn1e] at hkey
    rwa [stripIn_key, stripOut_key] at hkey
  · rintro ⟨n, hn, hkey, rfl⟩
    refine List.mem_filter.2 ⟨?_, ?_⟩
    · exact List.mem_map_of_mem _ (List.mem_map_of_mem _ hn)
    · rw [stripIn_key, stripOut_key]
      simpa using hkey

/-- After a successful delete, no surviving vertex references the
deleted vertex in either edge map (proved from edge symmetry). -/
theorem delete_strips {g : Graph V} (hg : GInv g) {key : String} {v : Vertex V}
    (hget : g.getV key = some v) :
    ∀ b ∈ (g.delete key).1.verts,
      edgeFind b.outgoingEdges v.id = none ∧ edgeFind b.incomingEdges v.id = none := by
  intro b hb
  have hvmem := getV_mem hget
  have hvkey := getV_some_key hget
  rcases (delete_mem_iff hget).1 hb with ⟨n, hn, hnkey, rfl⟩
  have hnv : n ≠ v := by
    intro hc
    rw [hc, hvkey] at hnkey
    exact hnkey rfl
  have hnvid : n.id ≠ v.id := fun hc => hnv (eq_of_id_eq hg.idsNodup hn hvmem hc)
  constructor
  · rw [stripIn_out, stripOut_out]
    by_cases hany : v.incomingEdges.any (fun p => p.1 == n.id)
    · rw [if_pos hany]
      exact edgeFind_edgeDel_self _ _
    · rw [if_neg hany]
      cases hfind : edgeFind n.outgoingEdges v.id with
      | none => rfl
      | some w =>
          exfalso
          have hsym : edgeFind v.incomingEdges n.id = some w := by
            rw [← hg.symm n hn v hvmem]
            exact hfind
          have hmem2 := edgeFind_mem hsym
          exact hany (List.any_eq_true.2 ⟨(n.id, w), hmem2, by simp⟩)
  · rw [stripIn_in, stripOut_in, stripOut_id]
    by_cases hany : ((stripOut v.id v.incomingEdges v).outgoingEdges).any
        (fun p => p.1 == n.id)
    · rw [if_pos hany]
      exact edgeFind_edgeDel_self _ _
    · rw [if_neg hany]
      cases hfind : edgeFind n.incomingEdges v.id with
      | none => rfl
      | some w =>
          exfalso
          have hsym : edgeFind v.outgoingEdges n.id = some w := by
            rw [hg.symm v hvmem n hn]
            exact hfind
          have hmem2 := edgeFind_mem hsym
          have hmem3 : (n.id, w) ∈ (stripOut v.id v.incomingEdges v).outgoingEdges := by
            rw [stripOut_out]
            by_cases hself : v.incomingEdges.any (fun p => p.1 == v.id)
            · rw [if_pos hself]
              exact List.mem_filter.2 ⟨hmem2, by simpa using hnvid⟩
            · rw [if_neg hself]
              exact hmem2
          exact hany (List.any_eq_true.2 ⟨(n.id, w), hmem3, by simp⟩)

theorem ginv_delete {g : Graph V} (hg : GInv g) (key : String) : GInv (g.delete key).1 := by
  cases hget : g.getV key with
  | none =>
      unfold Graph.delete
      rw [hget]
      exact hg
  | some v =>
      have hvmem := getV_mem hget
      have hvkey := getV_some_key hget
      have hstrip := delete_strips hg hget
      have hnext : (g.delete key).1.nextId = g.nextId := by
        rw [delete_eq_of_found hget]
      have hverts : (g.delete key).1.verts =
          ((g.verts.map (stripOut v.id v.incomingEdges)).map
            (stripIn v.id (stripOut v.id v.incomingEdges v).outgoingEdges)).filter
            (fun n => !(n.key == key)) := by
        rw [delete_eq_of_found hget]
      have hsurv : ∀ {n : Vertex V}, n ∈ g.verts → ¬ n.key = key →
          stripIn v.id (stripOut v.id v.incomingEdges v).outgoingEdges
            (stripOut v.id v.incomingEdges n) ∈ (g.delete key).1.verts := by
        intro n hn hk
        exact (delete_mem_iff hget).2 ⟨n, hn, hk, rfl⟩
      have hkeyproj : ∀ n : Vertex V,
          (stripIn v.id (stripOut v.id v.incomingEdges v).outgoingEdges
            (stripOut v.id v.incomingEdges n)).key = n.key := by
        intro n
        rw [stripIn_key, stripOut_key]
      have hidproj : ∀ n : Vertex V,
          (stripIn v.id (stripOut v.id v.incomingEdges v).outgoingEdges
            (stripOut v.id v.incomingEdges n)).id = n.id := by
        intro n
        rw [stripIn_id, stripOut_id]
      have houtproj : ∀ n : Vertex V,
          (stripIn v.id (stripOut v.id v.incomingEdges v).outgoingEdges
            (stripOut v.id v.incomingEdges n)).outgoingEdges =
          if v.incomingEdges.any (fun p => p.1 == n.id) then edgeDel n.outgoingEdges v.id
          else n.outgoingEdges := by
        intro n
        rw [stripIn_out, stripOut_out]
      have hinproj : ∀ n : Vertex V,
          (stripIn v.id (stripOut v.id v.incomingEdges v).outgoingEdges
            (stripOut v.id v.incomingEdges n)).incomingEdges =
          if ((stripOut v.id v.incomingEdges v).outgoingEdges).any
              (fun p => p.1 == n.id) then edgeDel n.incomingEdges v.id
          else n.incomingEdges := by
        intro n
        rw [stripIn_in, stripOut_in, stripOut_id]
      have houtsub : ∀ n : Vertex V, ∀ p,
          p ∈ (stripIn v.id (stripOut v.id v.incomingEdges v).outgoingEdges
            (stripOut v.id v.incomingEdges n)).outgoingEdges → p ∈ n.outgoingEdges := by
        intro n p hp
        rw [houtproj] at hp
        by_cases hc : v.incomingEdges.any (fun q => q.1 == n.id)
        · rw [if_pos hc] at hp
          exact (mem_edgeDel hp).1
        · rwa [if_neg hc] at hp
      have hinsub : ∀ n : Vertex V, ∀ p,
          p ∈ (stripIn v.id (stripOut v.id v.incomingEdges v).outgoingEdges
            (stripOut v.id v.incomingEdges n)).incomingEdges → p ∈ n.incomingEdges := by
        intro n p hp
        rw [hinproj] at hp
        by_cases hc : ((stripOut v.id v.incomingEdges v).outgoingEdges).any
            (fun q => q.1 == n.id)
        · rw [if_pos hc] at hp
          exact (mem_edgeDel hp).1
        · rwa [if_neg hc] at hp
      refine ⟨?_, ?_, ?_, ?_, ?_, ?_, ?_, ?_, ?_, ?_⟩
      · rw [hverts]
        refine ((List.filter_sublist _).map (fun n : Vertex V => n.key)).nodup ?_
        rw [List.map_map, List.map_map]
        have heq : g.verts.map (((fun n : Vertex V => n.key) ∘
            stripIn v.id (stripOut v.id v.incomingEdges v).outgoingEdges) ∘
            stripOut v.id v.incomingEdges) = g.verts.map (fun n : Vertex V => n.key) :=
          List.map_congr_left (fun n _ => hkeyproj n)
        rw [heq]
        exact hg.keysNodup
      · rw [hverts]
        refine ((List.filter_sublist _).map (fun n : Vertex V => n.id)).nodup ?_
        rw [List.map_map, List.map_map]
        have heq : g.verts.map (((fun n : Vertex V => n.id) ∘
            stripIn v.id (stripOut v.id v.incomingEdges v).outgoingEdges) ∘
            stripOut v.id v.incomingEdges) = g.verts.map (fun n : Vertex V => n.id) :=
          List.map_congr_left (fun n _ => hidproj n)
        rw [heq]
        exact hg.idsNodup
      · intro a ha
        rcases (delete_mem_iff hget).1 ha with ⟨n, hn, hk, rfl⟩
        rw [hnext, hidproj]
        exact hg.idsLt n hn
      · intro a ha b hb
        rcases (delete_mem_iff hget).1 ha with ⟨a0, ha0, hka, rfl⟩
        rcases (delete_mem_iff hget).1 hb with ⟨b0, hb0, hkb, rfl⟩
        have hb0v : b0.id ≠ v.id := by
          intro hc
          have : b0 = v := eq_of_id_eq hg.idsNodup hb0 hvmem hc
          rw [this, hvkey] at hkb
          exact hkb rfl
        have ha0v : a0.id ≠ v.id := by
          intro hc
          have : a0 = v := eq_of_id_eq hg.idsNodup ha0 hvmem hc
          rw [this, hvkey] at hka
          exact hka rfl
        rw [houtproj, hinproj, hidproj, hidproj]
        have h1 : edgeFind (if v.incomingEdges.any (fun p => p.1 == a0.id) then
            edgeDel a0.outgoingEdges v.id else a0.outgoingEdges) b0.id =
            edgeFind a0.outgoingEdges b0.id := by
          split
          · exact edgeFind_edgeDel_other _ _ _ hb0v
          · rfl
        have h2 : edgeFind (if ((stripOut v.id v.incomingEdges v).outgoingEdges).any
            (fun p => p.1 == b0.id) then
            edgeDel b0.incomingEdges v.id else b0.incomingEdges) a0.id =
            edgeFind b0.incomingEdges a0.id := by
          split
          · exact edgeFind_edgeDel_other _ _ _ ha0v
          · rfl
        rw [h1, h2]
        exact hg.symm a0 ha0 b0 hb0
      · intro a ha p hp
        rcases (delete_mem_iff hget).1 ha with ⟨a0, ha0, hka, rfl⟩
        have hpv : p.1 ≠ v.id := by
          have hnone := (hstrip _ ((delete_mem_iff hget).2 ⟨a0, ha0, hka, rfl⟩)).1
          exact (edgeFind_eq_none_iff _ _).1 hnone p hp
        have hp0 := houtsub a0 p hp
        rcases hg.outReg a0 ha0 p hp0 with ⟨b, hb, hbe⟩
        have hbv : ¬ b.key = key := by
          intro hc
          have : b = v := eq_of_key_eq hg.keysNodup hb hvmem (hc.trans hvkey.symm)
          rw [this] at hbe
          exact hpv hbe.symm
        refine ⟨stripIn v.id (stripOut v.id v.incomingEdges v).outgoingEdges
          (stripOut v.id v.incomingEdges b), hsurv hb hbv, ?_⟩
        rw [hidproj]
        exact hbe
      · intro a ha p hp
        rcases (delete_mem_iff hget).1 ha with ⟨a0, ha0, hka, rfl⟩
        have hpv : p.1 ≠ v.id := by
          have hnone := (hstrip _ ((delete_mem_iff hget).2 ⟨a0, ha0, hka, rfl⟩)).2
          exact (edgeFind_eq_none_iff _ _).1 hnone p hp
        have hp0 := hinsub a0 p hp
        rcases hg.inReg a0 ha0 p hp0 with ⟨b, hb, hbe⟩
        have hbv : ¬ b.key = key := by
          intro hc
          have : b = v := eq_of_key_eq hg.keysNodup hb hvmem (hc.trans hvkey.symm)
          rw [this] at hbe
          exact hpv hbe.symm
        refine ⟨stripIn v.id (stripOut v.id v.incomingEdges v).outgoingEdges
          (stripOut v.id v.incomingEdges b), hsurv hb hbv, ?_⟩
        rw [hidproj]
        exact hbe
      · intro a ha
        rcases (delete_mem_iff hget).1 ha with ⟨a0, ha0, hka, rfl⟩
        rw [houtproj]
        split
        · exact edgeKeys_edgeDel_nodup (hg.outNodup a0 ha0)
        · exact hg.outNodup a0 ha0
      · intro a ha
        rcases (delete_mem_iff hget).1 ha with ⟨a0, ha0, hka, rfl⟩
        rw [hinproj]
        split
        · exact edgeKeys_edgeDel_nodup (hg.inNodup a0 ha0)
        · exact hg.inNodup a0 ha0
      · intro a ha p hp
        rcases (delete_mem_iff hget).1 ha with ⟨a0, ha0, hka, rfl⟩
        rw [hidproj]
        exact hg.noSelfOut a0 ha0 p (houtsub a0 p hp)
      · intro a ha p hp
        rcases (delete_mem_iff hget).1 ha with ⟨a0, ha0, hka, rfl⟩
        rw [hidproj]
        exact hg.noSelfIn a0 ha0 p (hinsub a0 p hp)

/-- Every reachable graph state satisfies the invariant. -/
theorem reachable_ginv {g : Graph V} (hg : Reachable g) : GInv g := by
  induction hg with
  | empty => exact ginv_empty
  | set k val _ ih => exact ginv_set ih k val
  | delete k _ ih => exact ginv_delete ih k
  | connect k k2 w _ ih => exact ginv_connect ih k k2 w
  | disconnect k k2 _ ih => exact ginv_disconnect ih k k2

/-! ### Claim theorems: registry operations -/

/-- C1: On any reachable state, `Delete(a)` with `a` present returns
`true`, removes `a` from the registry, and leaves no surviving vertex
holding the deleted vertex in its incoming or outgoing edge map; with
`a` absent it returns `false` and leaves the graph unchanged. -/
theorem Graph.delete_correct (g : Graph V) (hg : Reachable g) (a : String) :
    (∀ v, g.getV a = some v →
      (g.delete a).2 = true ∧ ((g.delete a).1).getV a = none ∧
      ∀ b ∈ ((g.delete a).1).verts,
        edgeFind b.outgoingEdges v.id = none ∧ edgeFind b.incomingEdges v.id = none) ∧
    (g.getV a = none → g.delete a = (g, false)) := by
  have hinv := reachable_ginv hg
  constructor
  · intro v hget
    refine ⟨?_, ?_, delete_strips hinv hget⟩
    · rw [delete_eq_of_found hget]
    · rw [delete_eq_of_found hget, getV_eq_none_iff]
      intro n hn
      have := List.of_mem_filter hn
      simpa using this
  · intro hnone
    unfold Graph.delete
    rw [hnone]

/-- C2: edge symmetry holds in every state reachable from the empty
graph: one vertex's outgoing map records the other with weight `w`
exactly when the other's incoming map records it back with `w`. -/
theorem Graph.edge_symmetry (g : Graph V) (hg : Reachable g) (a b : Vertex V)
    (ha : a ∈ g.verts) (hb : b ∈ g.verts) (w : Int) :
    edgeFind a.outgoingEdges b.id = some w ↔ edgeFind b.incomingEdges a.id = some w := by
  rw [(reachable_ginv hg).symm a ha b hb]

/-- C7: `Connect` returns `false` exactly when the keys are equal or one
of them is unknown, and in that case the graph is unchanged. -/
theorem Graph.connect_false_iff (g : Graph V) (f t : String) (w : Int) :
    ((g.connect f t w).2 = false ↔ (f = t ∨ g.getV f = none ∨ g.getV t = none)) ∧
    ((g.connect f t w).2 = false → (g.connect f t w).1 = g) := by
  unfold Graph.connect
  by_cases hft : f = t
  · rw [if_pos (by simpa using hft)]
    simp [hft]
  · rw [if_neg (by simpa using hft)]
    cases hf : g.getV f with
    | none => simp [hft]
    | some fv =>
        cases ht : g.getV t with
        | none => simp [hft]
        | some tv => simp [hft]

theorem connect_getV {g : Graph V} {fromKey toKey : String} {w : Int}
    {fromV toV : Vertex V} (hne : fromKey ≠ toKey)
    (hf : g.getV fromKey = some fromV) (ht : g.getV toKey = some toV) (k : String) :
    (g.connect fromKey toKey w).1.getV k =
      (g.getV k).map (connectUpd fromV toV w) := by
  rw [connect_eq_of_valid hne hf ht]
  show (g.verts.map (connectUpd fromV toV w)).find? (fun v => v.key == k) = _
  rw [List.find?_map]
  have hpe : ((fun v : Vertex V => v.key == k) ∘ connectUpd fromV toV w) =
      (fun v : Vertex V => v.key == k) := by
    funext v
    simp [Function.comp, connectUpd_key]
  rw [hpe]
  rfl

/-- C3: right after `Connect(a,b,w)` on distinct present keys,
`IsConnected(a,b)` reports `(true, w)`, and `IsConnected(b,a)` can only
report `true` if a separate directed edge from `b` to `a` already
exists. -/
theorem Graph.connect_isConnected (g : Graph V) (hg : Reachable g) (a b : String)
    (hab : a ≠ b) (va vb : Vertex V) (hva : g.getV a = some va)
    (hvb : g.getV b = some vb) (w : Int) :
    ((g.connect a b w).1.isConnected a b = (true, w)) ∧
    (((g.connect a b w).1.isConnected b a).1 = true →
      ∃ w2, edgeFind vb.outgoingEdges va.id = some w2) := by
  have hinv := reachable_ginv hg
  have hvamem := getV_mem hva
  have hvbmem := getV_mem hvb
  have hft : va.id ≠ vb.id := by
    intro hc
    have : va = vb := eq_of_id_eq hinv.idsNodup hvamem hvbmem hc
    rw [this] at hva
    exact hab ((getV_some_key hva).symm.trans (getV_some_key hvb))
  have hga := connect_getV (w := w) hab hva hvb a
  have hgb := connect_getV (w := w) hab hva hvb b
  rw [hva] at hga
  rw [hvb] at hgb
  have hva' : (connectUpd va vb w va).outgoingEdges = edgeSet va.outgoingEdges vb.id w := by
    rw [connectUpd_out, if_pos rfl]
  have hva'' : (connectUpd va vb w va).incomingEdges = va.incomingEdges := by
    rw [connectUpd_in, if_neg hft]
  have hvb' : (connectUpd va vb w vb).incomingEdges = edgeSet vb.incomingEdges va.id w := by
    rw [connectUpd_in, if_pos rfl]
  have hvb'' : (connectUpd va vb w vb).outgoingEdges = vb.outgoingEdges := by
    rw [connectUpd_out, if_neg (fun hc => hft hc.symm)]
  constructor
  · unfold Graph.isConnected
    rw [if_neg (by simpa using hab), hga, hgb]
    simp only [Option.map_some']
    split
    · rw [hva', connectUpd_id, edgeFind_edgeSet_self]
    · rw [hvb', connectUpd_id, edgeFind_edgeSet_self]
  · unfold Graph.isConnected
    rw [if_neg (by simpa using fun hc : b = a => hab hc.symm), hga, hgb]
    simp only [Option.map_some']
    split
    · rw [hvb'', connectUpd_id]
      cases hfind : edgeFind vb.outgoingEdges va.id with
      | none => simp
      | some w2 => exact fun _ => ⟨w2, rfl⟩
    · rw [hva'', connectUpd_id]
      cases hfind : edgeFind va.incomingEdges vb.id with
      | none => simp
      | some w2 =>
          intro _
          refine ⟨w2, ?_⟩
          rw [hinv.symm vb hvbmem va hvamem]
          exact hfind

/-- The worked-example graph of the spec (section 8) and of the
repository's tests: vertices 1..4 with edges 1→2(5), 2→3(1), 3→1(9),
4→2(3). -/
def exampleGraph : Graph Int :=
  ((((((((Graph.empty.set "1" 123).set "2" 678).set "3" 7).set "4" 8).connect
    "1" "2" 5).1.connect "2" "3" 1).1.connect "3" "1" 9).1.connect "4" "2" 3).1

theorem exampleGraph_reachable : Reachable exampleGraph := by
  unfold exampleGraph
  apply Reachable.connect
  apply Reachable.connect
  apply Reachable.connect
  apply Reachable.connect
  apply Reachable.set
  apply Reachable.set
  apply Reachable.set
  apply Reachable.set
  exact Reachable.empty

/-- Witness for C1 at the example graph: deleting key 1 succeeds,
removes it, and its former neighbor 2 retains no reference to it. -/
theorem Graph.delete_correct_witness :
    (exampleGraph.delete "1").2 = true ∧
    ((exampleGraph.delete "1").1).getV "1" = none ∧
    (edgeFind (⟨1, "2", 678, [(2, 1)], [(3, 3)]⟩ : Vertex Int).outgoingEdges 0 = none ∧
      edgeFind (⟨1, "2", 678, [(2, 1)], [(3, 3)]⟩ : Vertex Int).incomingEdges 0 = none) := by
  have h := (Graph.delete_correct exampleGraph exampleGraph_reachable "1").1
    ⟨0, "1", 123, [(1, 5)], [(2, 9)]⟩ (by decide)
  exact ⟨h.1, h.2.1, h.2.2 ⟨1, "2", 678, [(2, 1)], [(3, 3)]⟩ (by decide)⟩

/-- Witness for C2 at the example graph: the edge 1→2 of weight 5 is
recorded symmetrically. -/
theorem Graph.edge_symmetry_witness :
    edgeFind (⟨0, "1", 123, [(1, 5)], [(2, 9)]⟩ : Vertex Int).outgoingEdges
        (⟨1, "2", 678, [(2, 1)], [(0, 5), (3, 3)]⟩ : Vertex Int).id = some 5 ↔
      edgeFind (⟨1, "2", 678, [(2, 1)], [(0, 5), (3, 3)]⟩ : Vertex Int).incomingEdges
        (⟨0, "1", 123, [(1, 5)], [(2, 9)]⟩ : Vertex Int).id = some 5 :=
  Graph.edge_symmetry exampleGraph exampleGraph_reachable
    ⟨0, "1", 123, [(1, 5)], [(2, 9)]⟩ ⟨1, "2", 678, [(2, 1)], [(0, 5), (3, 3)]⟩
    (by decide) (by decide) 5

/-- Witness for C3 at the example graph: connecting 1→4 with weight 7. -/
theorem Graph.connect_isConnected_witness :
    ((exampleGraph.connect "1" "4" 7).1.isConnected "1" "4" = (true, 7)) ∧
    (((exampleGraph.connect "1" "4" 7).1.isConnected "4" "1").1 = true →
      ∃ w2, edgeFind (⟨3, "4", 8, [(1, 3)], []⟩ : Vertex Int).outgoingEdges
        (⟨0, "1", 123, [(1, 5)], [(2, 9)]⟩ : Vertex Int).id = some w2) :=
  Graph.connect_isConnected exampleGraph exampleGraph_reachable "1" "4" (by decide)
    ⟨0, "1", 123, [(1, 5)], [(2, 9)]⟩ ⟨3, "4", 8, [(1, 3)], []⟩
    (by decide) (by decide) 7

/-- Witness for C7 on the self-loop case over the empty graph. -/
theorem Graph.connect_false_iff_witness :
    (((Graph.empty : Graph Int).connect "a" "a" 1).2 = false ↔
      ("a" = "a" ∨ (Graph.empty : Graph Int).getV "a" = none ∨
        (Graph.empty : Graph Int).getV "a" = none)) ∧
    (((Graph.empty : Graph Int).connect "a" "a" 1).2 = false →
      ((Graph.empty : Graph Int).connect "a" "a" 1).1 = Graph.empty) :=
  Graph.connect_false_iff Graph.empty "a" "a" 1

/-! ### Claim theorems: the A* worked example and missing keys -/

/-- C4: on the worked-example graph, the zero-heuristic search from 1
to 3 finds the weight-6 route 1→2→3 (weights 5 and 1), reported end to
start, and the search from 1 to 4 reports no path. -/
theorem Graph.astar_worked_example :
    exampleGraph.shortestPathWithHeuristic "1" "3" (fun _ _ => 0) =
      (["3", "2", "1"], true) ∧
    exampleGraph.edgeWeight "1" "2" = some 5 ∧
    exampleGraph.edgeWeight "2" "3" = some 1 ∧
    exampleGraph.shortestPathWithHeuristic "1" "4" (fun _ _ => 0) = ([], false) := by
  refine ⟨?_, ?_, ?_, ?_⟩ <;> decide

/-- C5, the failing input: when both keys are absent, the source's
start and end lookups both yield the nil pointer, the start item is
popped and immediately compares equal to the end vertex, so the search
reports `found = true` with an empty path — not `found = false` as the
spec requires.  (With exactly one key absent it does report `false`, as
the last two conjuncts show.) -/
theorem Graph.astar_missing_both_keys :
    (Graph.empty : Graph Int).shortestPathWithHeuristic "a" "b" (fun _ _ => 0) =
      ([], true) ∧
    exampleGraph.shortestPathWithHeuristic "1" "zzz" (fun _ _ => 0) = ([], false) ∧
    exampleGraph.shortestPathWithHeuristic "zzz" "1" (fun _ _ => 0) = ([], false) := by
  refine ⟨?_, ?_, ?_⟩ <;> decide

theorem find?_id_of_mem {l : List (Vertex V)} (hnd : (l.map (fun v => v.id)).Nodup)
    {v : Vertex V} (hv : v ∈ l) : l.find? (fun u => u.id == v.id) = some v := by
  induction l with
  | nil => cases hv
  | cons a l ih =>
      rw [List.map_cons, List.nodup_cons] at hnd
      rcases List.mem_cons.1 hv with rfl | hv2
      · simp
      · have hne : ¬ a.id = v.id := by
          intro hc
          exact hnd.1 (by rw [hc]; exact List.mem_map_of_mem _ hv2)
        rw [List.find?_cons_of_neg _ (by simpa using hne)]
        exact ih hnd.2 hv2

/-- The one-step unfolding of the search loop. -/
theorem astarLoop_succ (g : Graph V) (endV : Option Nat) (endKey : String)
    (h : String → String → Int) (fuel : Nat) (queue : List Item)
    (openL closedL : List (Option Nat × Item)) :
    astarLoop g endV endKey h (fuel + 1) queue openL closedL =
      match heapPop queue with
      | none => some ([], false)
      | some (it, q1) =>
          match olookup openL it.v with
          | none => none
          | some citem =>
              let closed1 := (it.v, citem) :: closedL
              let open1 := odel openL it.v
              if it.v == endV then
                some (buildPath g closed1 it.v (closed1.length + 1), true)
              else
                let distance := citem.distanceFromStart
                let st := (g.outgoingOf it.v).foldl
                  (expandStep g endKey h it.v distance closed1) (q1, open1)
                astarLoop g endV endKey h fuel st.1 st.2 closed1 := rfl

/-- C10: searching from a present key to itself returns that single-key
path with `found = true`, for any heuristic: the start item is popped
first and immediately compares equal to the end vertex. -/
theorem Graph.astar_self_path (g : Graph V) (hg : Reachable g) (k : String)
    (v : Vertex V) (hv : g.getV k = some v) (h : String → String → Int) :
    g.shortestPathWithHeuristic k k h = ([k], true) := by
  have hinv := reachable_ginv hg
  have hkid : g.keyOfId v.id = k := by
    unfold Graph.keyOfId Graph.findById
    rw [find?_id_of_mem hinv.idsNodup (getV_mem hv)]
    simpa using getV_some_key hv
  have holo : olookup [(some v.id, (⟨some v.id, none, 0, 0⟩ : Item))] (some v.id) =
      some ⟨some v.id, none, 0, 0⟩ := by
    simp [olookup]
  have hbp : buildPath g [(some v.id, (⟨some v.id, none, 0, 0⟩ : Item))] (some v.id)
      ([(some v.id, (⟨some v.id, none, 0, 0⟩ : Item))].length + 1) =
      [g.keyOfId v.id] := by
    simp [buildPath, holo]
  unfold Graph.shortestPathWithHeuristic Graph.astarRun
  rw [hv]
  simp only [Option.map_some']
  rw [show g.verts.length + 2 = (g.verts.length + 1) + 1 from rfl, astarLoop_succ]
  have hpop : heapPop (heapPush [] (⟨some v.id, none, 0, 0⟩ : Item)) =
      some (⟨some v.id, none, 0, 0⟩, []) := rfl
  rw [hpop]
  simp only [holo, beq_self_eq_true, if_true, hbp, hkid]
  rfl

/-- Witness for C10 at the example graph. -/
theorem Graph.astar_self_path_witness :
    exampleGraph.shortestPathWithHeuristic "1" "1" (fun _ _ => 0) = (["1"], true) :=
  Graph.astar_self_path exampleGraph exampleGraph_reachable "1"
    ⟨0, "1", 123, [(1, 5)], [(2, 9)]⟩ (by decide) (fun _ _ => 0)

/-! ### Gob lemmas -/

theorem connect_true_iff (g : Graph V) (f t : String) (w : Int) :
    (g.connect f t w).2 = true ↔
      (¬ f = t ∧ (g.getV f).isSome = true ∧ (g.getV t).isSome = true) := by
  unfold Graph.connect
  by_cases hft : f = t
  · rw [if_pos (by simpa using hft)]
    simp [hft]
  · rw [if_neg (by simpa using hft)]
    cases hf : g.getV f with
    | none => simp [hft]
    | some fv =>
        cases ht : g.getV t with
        | none => simp [hft]
        | some tv => simp [hft]

theorem connect_getV_isSome (g : Graph V) (f t : String) (w : Int) (k : String) :
    (((g.connect f t w).1).getV k).isSome = ((g.getV k).isSome) := by
  by_cases hft : f = t
  · unfold Graph.connect
    rw [if_pos (by simpa using hft)]
  · cases hf : g.getV f with
    | none =>
        unfold Graph.connect
        rw [if_neg (by simpa using hft), hf]
    | some fv =>
        cases ht : g.getV t with
        | none =>
            unfold Graph.connect
            rw [if_neg (by simpa using hft), hf, ht]
        | some tv =>
            rw [connect_getV hft hf ht k]
            cases g.getV k <;> rfl

theorem set_getV_isSome (g : Graph V) (k' : String) (val : V) (k : String) :
    ((g.set k' val).getV k).isSome = true →
      (g.getV k).isSome = true ∨ k = k' := by
  unfold Graph.set
  cases hget : g.getV k' with
  | none =>
      intro h
      unfold Graph.getV at h
      rw [List.find?_append] at h
      cases hfa : g.verts.find? (fun v => v.key == k) with
      | some v =>
          left
          unfold Graph.getV
          rw [hfa]
          rfl
      | none =>
          rw [hfa, Option.none_or] at h
          cases hfb : List.find? (fun v : Vertex V => v.key == k)
              [⟨g.nextId, k', val, [], []⟩] with
          | none => rw [hfb] at h; simp at h
          | some u =>
              right
              have := List.find?_some hfb
              have hmem := List.mem_of_find?_eq_some hfb
              rcases List.mem_singleton.1 hmem with rfl
              have : k' = k := by simpa using List.find?_some hfb
              exact this.symm
  | some v0 =>
      intro h
      unfold Graph.getV at h
      rw [List.find?_map] at h
      cases hfa : g.verts.find?
          ((fun v : Vertex V => v.key == k) ∘
            fun v => if v.key == k' then { v with value := val } else v) with
      | none => rw [hfa] at h; simp at h
      | some u =>
          left
          have hp := List.find?_some hfa
          have hmem := List.mem_of_find?_eq_some hfa
          have hup : ∀ v : Vertex V,
              ((fun v : Vertex V => v.key == k) ∘
                fun v => if v.key == k' then { v with value := val } else v) v =
              (v.key == k) := by
            intro v
            by_cases hv : v.key == k' <;> simp [Function.comp, hv]
          have hueq : (u.key == k) = true := by
            rw [← hup u]
            exact hp
          unfold Graph.getV
          cases hfb : g.verts.find? (fun v => v.key == k) with
          | some x => rfl
          | none =>
              exfalso
              rw [List.find?_eq_none] at hfb
              exact hfb u hmem hueq

theorem setFold_getV_isSome (KS : List (String × V)) :
    ∀ (g : Graph V) (k : String),
      (((KS.foldl (fun acc kv => acc.set kv.1 kv.2) g)).getV k).isSome = true →
      (g.getV k).isSome = true ∨ ∃ kv ∈ KS, kv.1 = k := by
  induction KS with
  | nil =>
      intro g k h
      exact Or.inl h
  | cons kv KS ih =>
      intro g k h
      rcases ih (g.set kv.1 kv.2) k h with h1 | h1
      · rcases set_getV_isSome g kv.1 kv.2 k h1 with h2 | h2
        · exact Or.inl h2
        · exact Or.inr ⟨kv, List.mem_cons_self _ _, h2.symm⟩
      · rcases h1 with ⟨kv2, hkv2, hke⟩
        exact Or.inr ⟨kv2, List.mem_cons_of_mem _ hkv2, hke⟩

theorem connectGroup_ok {g : Graph V} {k : String} {ns : List (String × Int)}
    {g' : Graph V} (h : connectGroup g k ns = Except.ok g') :
    (∀ p ∈ ns, (g.getV k).isSome = true ∧ (g.getV p.1).isSome = true) ∧
    (∀ x, (g'.getV x).isSome = (g.getV x).isSome) := by
  induction ns generalizing g with
  | nil =>
      cases h
      exact ⟨fun p hp => absurd hp (List.not_mem_nil p), fun x => rfl⟩
  | cons p ns ih =>
      unfold connectGroup at h
      by_cases hc : (g.connect k p.1 p.2).2
      · rw [if_pos hc] at h
        rcases connect_true_iff g k p.1 p.2 |>.1 hc with ⟨_, hk, hp1⟩
        rcases ih h with ⟨hall, hpres⟩
        refine ⟨?_, ?_⟩
        · intro q hq
          rcases List.mem_cons.1 hq with rfl | hq2
          · exact ⟨hk, hp1⟩
          · rcases hall q hq2 with ⟨h1, h2⟩
            rw [connect_getV_isSome] at h1 h2
            exact ⟨h1, h2⟩
        · intro x
          rw [hpres x, connect_getV_isSome]
      · rw [if_neg hc] at h
        cases h

theorem connectEdges_ok {g : Graph V} {es : List (String × List (String × Int))}
    {g' : Graph V} (h : connectEdges g es = Except.ok g') :
    (∀ e ∈ es, ∀ p ∈ e.2,
      (g.getV e.1).isSome = true ∧ (g.getV p.1).isSome = true) ∧
    (∀ x, (g'.getV x).isSome = (g.getV x).isSome) := by
  induction es generalizing g with
  | nil =>
      cases h
      exact ⟨fun e he => absurd he (List.not_mem_nil e), fun x => rfl⟩
  | cons e es ih =>
      unfold connectEdges at h
      cases hcg : connectGroup g e.1 e.2 with
      | error msg => rw [hcg] at h; cases h
      | ok g1 =>
          rw [hcg] at h
          rcases connectGroup_ok hcg with ⟨hgrp, hpres1⟩
          rcases ih h with ⟨hall, hpres2⟩
          refine ⟨?_, ?_⟩
          · intro e2 he2 p hp
            rcases List.mem_cons.1 he2 with rfl | he3
            · exact hgrp p hp
            · rcases hall e2 he3 p hp with ⟨h1, h2⟩
              rw [hpres1] at h1 h2
              exact ⟨h1, h2⟩
          · intro x
            rw [hpres2 x, hpres1 x]

/-- C9: decoding (into a fresh graph) fails with an explicit error
whenever the record holds an edge with an endpoint key that is not
among the decoded vertices; such an edge is never silently dropped. -/
theorem Graph.gobDecode_unknown_edge_errors (rec : GraphGob V)
    (hbad : ∃ e ∈ rec.edges, ∃ p ∈ e.2,
      (∀ kv ∈ rec.vertices, kv.1 ≠ e.1) ∨ (∀ kv ∈ rec.vertices, kv.1 ≠ p.1)) :
    ∃ msg, (Graph.empty : Graph V).gobDecode rec = Except.error msg := by
  cases hdec : (Graph.empty : Graph V).gobDecode rec with
  | error msg => exact ⟨msg, rfl⟩
  | ok g' =>
      exfalso
      unfold Graph.gobDecode at hdec
      rcases hbad with ⟨e, he, p, hp, hbad2⟩
      rcases (connectEdges_ok hdec).1 e he p hp with ⟨h1, h2⟩
      rcases hbad2 with hbad3 | hbad3
      · rcases setFold_getV_isSome rec.vertices Graph.empty e.1 h1 with hc | ⟨kv, hkv, hke⟩
        · simp [Graph.empty, Graph.getV] at hc
        · exact hbad3 kv hkv hke
      · rcases setFold_getV_isSome rec.vertices Graph.empty p.1 h2 with hc | ⟨kv, hkv, hke⟩
        · simp [Graph.empty, Graph.getV] at hc
        · exact hbad3 kv hkv hke

/-- Witness for C9: a record with one vertex and an edge to an unknown
key decodes to an error. -/
theorem Graph.gobDecode_unknown_edge_errors_witness :
    ∃ msg, (Graph.empty : Graph Int).gobDecode ⟨[("1", 5)], [("1", [("2", 7)])]⟩ =
      Except.error msg :=
  Graph.gobDecode_unknown_edge_errors ⟨[("1", 5)], [("1", [("2", 7)])]⟩
    ⟨("1", [("2", 7)]), by decide, ("2", 7), by decide, Or.inr (by decide)⟩

/-- Key-based lookup in a decoded edge group (proof-side abbreviation). -/
def lookupNs (ns : List (String × Int)) (y : String) : Option Int :=
  (ns.find? (fun p => p.1 == y)).map (fun p => p.2)

/-- Key-based lookup of a decoded edge group (proof-side abbreviation). -/
def glookup (es : List (String × List (String × Int))) (x : String) :
    Option (List (String × Int)) :=
  (es.find? (fun e => e.1 == x)).map (fun e => e.2)

theorem find?_congr_mem {α : Type} {p q : α → Bool} {l : List α}
    (h : ∀ x ∈ l, p x = q x) : l.find? p = l.find? q := by
  induction l with
  | nil => rfl
  | cons a l ih =>
      have ha := h a (List.mem_cons_self a l)
      by_cases hp : p a
      · rw [List.find?_cons_of_pos _ hp, List.find?_cons_of_pos _ (ha ▸ hp)]
      · rw [List.find?_cons_of_neg _ hp, List.find?_cons_of_neg _ (by rw [← ha]; exact hp)]
        exact ih (fun x hx => h x (List.mem_cons_of_mem _ hx))

theorem set_getV_fresh {g : Graph V} {k' : String} (hget : g.getV k' = none)
    (val : V) (k : String) :
    (g.set k' val).getV k =
      if k = k' then some ⟨g.nextId, k', val, [], []⟩ else g.getV k := by
  unfold Graph.set
  rw [hget]
  show (g.verts ++ [(⟨g.nextId, k', val, [], []⟩ : Vertex V)]).find? (fun v => v.key == k) = _
  rw [List.find?_append]
  by_cases hk : k = k'
  · subst hk
    rw [show (g.getV k) = g.verts.find? (fun v => v.key == k) from rfl] at hget
    rw [hget]
    simp
  · have hsingle : (List.find? (fun v : Vertex V => v.key == k)
        [⟨g.nextId, k', val, [], []⟩]) = none := by
      rw [List.find?_eq_none]
      intro x hx
      rcases List.mem_singleton.1 hx with rfl
      simpa using fun hc => hk hc.symm
    rw [hsingle, if_neg hk]
    show (g.verts.find? (fun v => v.key == k)).or none =
      g.verts.find? (fun v => v.key == k)
    cases g.verts.find? (fun v => v.key == k) <;> rfl

theorem setFold_length (KS : List (String × V)) :
    ∀ (g0 : Graph V), (∀ kv ∈ KS, g0.getV kv.1 = none) →
      (KS.map Prod.fst).Nodup →
      (KS.foldl (fun acc kv => acc.set kv.1 kv.2) g0).verts.length =
        g0.verts.length + KS.length := by
  induction KS with
  | nil =>
      intro g0 _ _
      rfl
  | cons kv KS ih =>
      intro g0 hfresh hnd
      rw [List.map_cons, List.nodup_cons] at hnd
      have hkv := hfresh kv (List.mem_cons_self _ _)
      have hfresh2 : ∀ kv2 ∈ KS, (g0.set kv.1 kv.2).getV kv2.1 = none := by
        intro kv2 hkv2
        rw [set_getV_fresh hkv]
        rw [if_neg (fun hc : kv2.1 = kv.1 =>
          hnd.1 (hc ▸ List.mem_map_of_mem Prod.fst hkv2))]
        exact hfresh kv2 (List.mem_cons_of_mem _ hkv2)
      have hlen1 : (g0.set kv.1 kv.2).verts.length = g0.verts.length + 1 := by
        unfold Graph.set
        rw [hkv]
        simp
      show (KS.foldl (fun acc kv => acc.set kv.1 kv.2) (g0.set kv.1 kv.2)).verts.length = _
      rw [ih (g0.set kv.1 kv.2) hfresh2 hnd.2, hlen1]
      simp [List.length_cons]
      omega

theorem setFold_ginv (KS : List (String × V)) :
    ∀ (g0 : Graph V), GInv g0 →
      GInv (KS.foldl (fun acc kv => acc.set kv.1 kv.2) g0) := by
  induction KS with
  | nil =>
      intro g0 h
      exact h
  | cons kv KS ih =>
      intro g0 h
      exact ih (g0.set kv.1 kv.2) (ginv_set h kv.1 kv.2)

theorem setFold_getV (KS : List (String × V)) :
    ∀ (g0 : Graph V), (∀ kv ∈ KS, g0.getV kv.1 = none) →
      (KS.map Prod.fst).Nodup → ∀ k : String,
      match KS.find? (fun kv => kv.1 == k) with
      | some kv => ∃ v, (KS.foldl (fun acc kv => acc.set kv.1 kv.2) g0).getV k = some v ∧
          v.value = kv.2 ∧ v.outgoingEdges = [] ∧ v.incomingEdges = []
      | none => (KS.foldl (fun acc kv => acc.set kv.1 kv.2) g0).getV k = g0.getV k := by
  induction KS with
  | nil =>
      intro g0 _ _ k
      show (g0.getV k) = g0.getV k
      rfl
  | cons kv KS ih =>
      intro g0 hfresh hnd k
      rw [List.map_cons, List.nodup_cons] at hnd
      have hkv := hfresh kv (List.mem_cons_self _ _)
      have hfresh2 : ∀ kv2 ∈ KS, (g0.set kv.1 kv.2).getV kv2.1 = none := by
        intro kv2 hkv2
        rw [set_getV_fresh hkv]
        rw [if_neg (fun hc : kv2.1 = kv.1 =>
          hnd.1 (hc ▸ List.mem_map_of_mem Prod.fst hkv2))]
        exact hfresh kv2 (List.mem_cons_of_mem _ hkv2)
      have hfold : ((kv :: KS).foldl (fun acc kv => acc.set kv.1 kv.2) g0) =
          KS.foldl (fun acc kv => acc.set kv.1 kv.2) (g0.set kv.1 kv.2) := rfl
      by_cases hk : kv.1 = k
      · rw [List.find?_cons_of_pos _ (by simpa using hk)]
        have hnone : KS.find? (fun kv2 => kv2.1 == k) = none := by
          rw [List.find?_eq_none]
          intro kv2 hkv2 hc
          exact hnd.1 (by
            rw [show kv.1 = kv2.1 from hk.trans ((by simpa using hc : kv2.1 = k)).symm]
            exact List.mem_map_of_mem Prod.fst hkv2)
        have := ih (g0.set kv.1 kv.2) hfresh2 hnd.2 k
        rw [hnone] at this
        rw [hfold, this, set_getV_fresh hkv, if_pos hk.symm]
        exact ⟨_, rfl, rfl, rfl, rfl⟩
      · rw [List.find?_cons_of_neg _ (by simpa using hk)]
        have := ih (g0.set kv.1 kv.2) hfresh2 hnd.2 k
        rw [hfold]
        cases hf : KS.find? (fun kv2 => kv2.1 == k) with
        | some kv2 =>
            rw [hf] at this
            exact this
        | none =>
            rw [hf] at this
            rw [this, set_getV_fresh hkv, if_neg (fun hc => hk hc.symm)]

theorem connect_length (g : Graph V) (f t : String) (w : Int) :
    (g.connect f t w).1.verts.length = g.verts.length := by
  by_cases hft : f = t
  · unfold Graph.connect
    rw [if_pos (by simpa using hft)]
  · cases hf : g.getV f with
    | none =>
        unfold Graph.connect
        rw [if_neg (by simpa using hft), hf]
    | some fv =>
        cases ht : g.getV t with
        | none =>
            unfold Graph.connect
            rw [if_neg (by simpa using hft), hf, ht]
        | some tv =>
            rw [connect_eq_of_valid hft hf ht]
            simp

theorem connect_getV_value (g : Graph V) (f t : String) (w : Int) (k : String) :
    (((g.connect f t w).1).getV k).map (fun v => v.value) =
      (g.getV k).map (fun v => v.value) := by
  by_cases hft : f = t
  · unfold Graph.connect
    rw [if_pos (by simpa using hft)]
  · cases hf : g.getV f with
    | none =>
        unfold Graph.connect
        rw [if_neg (by simpa using hft), hf]
    | some fv =>
        cases ht : g.getV t with
        | none =>
            unfold Graph.connect
            rw [if_neg (by simpa using hft), hf, ht]
        | some tv =>
            rw [connect_getV hft hf ht k]
            cases g.getV k with
            | none => rfl
            | some a => simp [connectUpd_value]

theorem connect_edgeWeight {g : Graph V} (hinv : GInv g) {f t : String} {w : Int}
    {fv tv : Vertex V} (hft : f ≠ t) (hf : g.getV f = some fv) (ht : g.getV t = some tv)
    (x y : String) :
    (g.connect f t w).1.edgeWeight x y =
      if x = f ∧ y = t then some w else g.edgeWeight x y := by
  have hfmem := getV_mem hf
  have htmem := getV_mem ht
  have hfvtv : fv.id ≠ tv.id := by
    intro hc
    have : fv = tv := eq_of_id_eq hinv.idsNodup hfmem htmem hc
    rw [this] at hf
    exact hft ((getV_some_key hf).symm.trans (getV_some_key ht))
  unfold Graph.edgeWeight
  rw [connect_getV hft hf ht x, connect_getV hft hf ht y]
  cases hx : g.getV x with
  | none =>
      rw [if_neg (fun hc => by rw [hc.1] at hx; rw [hx] at hf; cases hf)]
      cases g.getV y <;> rfl
  | some a =>
      cases hy : g.getV y with
      | none =>
          rw [if_neg (fun hc => by rw [hc.2] at hy; rw [hy] at ht; cases ht)]
          rfl
      | some b =>
          have hamem := getV_mem hx
          have hbmem := getV_mem hy
          have hxf_iff : x = f ↔ a.id = fv.id := by
            constructor
            · intro hc
              rw [hc] at hx
              rw [hx] at hf
              cases hf
              rfl
            · intro hc
              have : a = fv := eq_of_id_eq hinv.idsNodup hamem hfmem hc
              rw [← getV_some_key hx, this, getV_some_key hf]
          have hyt_iff : y = t ↔ b.id = tv.id := by
            constructor
            · intro hc
              rw [hc] at hy
              rw [hy] at ht
              cases ht
              rfl
            · intro hc
              have : b = tv := eq_of_id_eq hinv.idsNodup hbmem htmem hc
              rw [← getV_some_key hy, this, getV_some_key ht]
          show edgeFind (connectUpd fv tv w a).outgoingEdges (connectUpd fv tv w b).id =
            if x = f ∧ y = t then some w else edgeFind a.outgoingEdges b.id
          rw [connectUpd_out, connectUpd_id]
          by_cases hxa : a.id = fv.id
          · rw [if_pos hxa]
            by_cases hyb : b.id = tv.id
            · rw [if_pos (⟨hxf_iff.2 hxa, hyt_iff.2 hyb⟩ : x = f ∧ y = t), hyb,
                edgeFind_edgeSet_self]
            · rw [if_neg (fun hc => hyb (hyt_iff.1 hc.2)),
                edgeFind_edgeSet_other _ _ _ _ hyb]
          · rw [if_neg hxa, if_neg (fun hc => hxa (hxf_iff.1 hc.1))]

theorem connectGroup_spec {g : Graph V} (hinv : GInv g) {k : String}
    {ns : List (String × Int)}
    (hk : (g.getV k).isSome = true)
    (hns : ∀ p ∈ ns, (g.getV p.1).isSome = true ∧ p.1 ≠ k)
    (hnd : (ns.map Prod.fst).Nodup) :
    ∃ g', connectGroup g k ns = Except.ok g' ∧ GInv g' ∧
      g'.verts.length = g.verts.length ∧
      (∀ x, (g'.getV x).isSome = (g.getV x).isSome) ∧
      (∀ x, (g'.getV x).map (fun v => v.value) = (g.getV x).map (fun v => v.value)) ∧
      (∀ x y, g'.edgeWeight x y =
        if x = k then
          match lookupNs ns y with
          | some w2 => some w2
          | none => g.edgeWeight x y
        else g.edgeWeight x y) := by
  induction ns generalizing g with
  | nil =>
      refine ⟨g, rfl, hinv, rfl, fun x => rfl, fun x => rfl, ?_⟩
      intro x y
      by_cases hx : x = k <;> simp [lookupNs, hx]
  | cons p ns ih =>
      rw [List.map_cons, List.nodup_cons] at hnd
      rcases hns p (List.mem_cons_self _ _) with ⟨hp1, hpk⟩
      rcases Option.isSome_iff_exists.1 hk with ⟨kv, hkv⟩
      rcases Option.isSome_iff_exists.1 hp1 with ⟨pv, hpv⟩
      have hne : k ≠ p.1 := fun hc => hpk hc.symm
      have hconn : (g.connect k p.1 p.2).2 = true :=
        (connect_true_iff g k p.1 p.2).2 ⟨hne, by rw [hkv]; rfl, by rw [hpv]; rfl⟩
      have hcw : ∀ x y, (g.connect k p.1 p.2).1.edgeWeight x y =
          if x = k ∧ y = p.1 then some p.2 else g.edgeWeight x y :=
        fun x y => connect_edgeWeight hinv hne hkv hpv x y
      have hinv1 : GInv (g.connect k p.1 p.2).1 := ginv_connect hinv k p.1 p.2
      have hk1 : ((g.connect k p.1 p.2).1.getV k).isSome = true := by
        rw [connect_getV_isSome]
        exact hk
      have hns1 : ∀ q ∈ ns, (((g.connect k p.1 p.2).1.getV q.1).isSome = true) ∧ q.1 ≠ k := by
        intro q hq
        rcases hns q (List.mem_cons_of_mem _ hq) with ⟨hq1, hq2⟩
        rw [connect_getV_isSome]
        exact ⟨hq1, hq2⟩
      rcases ih hinv1 hk1 hns1 hnd.2 with ⟨g', hok, hginv, hlen, hsome, hval, hew⟩
      refine ⟨g', ?_, hginv, ?_, ?_, ?_, ?_⟩
      · unfold connectGroup
        rw [if_pos hconn]
        exact hok
      · rw [hlen, connect_length]
      · intro x
        rw [hsome x, connect_getV_isSome]
      · intro x
        rw [hval x, connect_getV_value]
      · intro x y
        rw [hew x y]
        by_cases hx : x = k
        · rw [if_pos hx, if_pos hx]
          cases hfind : lookupNs ns y with
          | some w2 =>
              have hyp : ¬ (p.1 == y) = true := by
                intro hc
                refine hnd.1 ?_
                rw [show p.1 = y by simpa using hc]
                unfold lookupNs at hfind
                cases hfq : ns.find? (fun q => q.1 == y) with
                | none =>
                    rw [hfq] at hfind
                    cases hfind
                | some q =>
                    have hq1 : q.1 = y := by simpa using List.find?_some hfq
                    have hqm := List.mem_of_find?_eq_some hfq
                    rw [← hq1]
                    exact List.mem_map_of_mem Prod.fst hqm
              have hcons : lookupNs (p :: ns) y = some w2 := by
                unfold lookupNs at hfind ⊢
                have hstep : List.find? (fun q : String × Int => q.1 == y) (p :: ns) =
                    List.find? (fun q : String × Int => q.1 == y) ns :=
                  List.find?_cons_of_neg _ hyp
                rw [hstep]
                exact hfind
              rw [hcons]
          | none =>
              rw [hcw x y]
              by_cases hyp : y = p.1
              · rw [if_pos ⟨hx, hyp⟩]
                have hcons : lookupNs (p :: ns) y = some p.2 := by
                  unfold lookupNs
                  have hstep : List.find? (fun q : String × Int => q.1 == y) (p :: ns) =
                      some p :=
                    List.find?_cons_of_pos _ (by simpa using hyp.symm)
                  rw [hstep]
                  rfl
                rw [hcons]
              · rw [if_neg (fun hc => hyp hc.2)]
                have hcons : lookupNs (p :: ns) y = none := by
                  unfold lookupNs at hfind ⊢
                  have hstep : List.find? (fun q : String × Int => q.1 == y) (p :: ns) =
                      List.find? (fun q : String × Int => q.1 == y) ns :=
                    List.find?_cons_of_neg _
                      (by simpa using fun hc : p.1 = y => hyp hc.symm)
                  rw [hstep]
                  cases hfq : ns.find? (fun q => q.1 == y) with
                  | none => rfl
                  | some q =>
                      rw [hfq] at hfind
                      cases hfind
                rw [hcons]
        · rw [if_neg hx, if_neg hx, hcw x y, if_neg (fun hc => hx hc.1)]

theorem connectEdges_spec {g : Graph V} (hinv : GInv g)
    {es : List (String × List (String × Int))}
    (hes : ∀ e ∈ es, (g.getV e.1).isSome = true ∧
      (∀ p ∈ e.2, (g.getV p.1).isSome = true ∧ p.1 ≠ e.1) ∧
      (e.2.map Prod.fst).Nodup)
    (hnd : (es.map Prod.fst).Nodup) :
    ∃ g', connectEdges g es = Except.ok g' ∧ GInv g' ∧
      g'.verts.length = g.verts.length ∧
      (∀ x, (g'.getV x).isSome = (g.getV x).isSome) ∧
      (∀ x, (g'.getV x).map (fun v => v.value) = (g.getV x).map (fun v => v.value)) ∧
      (∀ x y, g'.edgeWeight x y =
        match glookup es x with
        | some ns =>
            match lookupNs ns y with
            | some w2 => some w2
            | none => g.edgeWeight x y
        | none => g.edgeWeight x y) := by
  induction es generalizing g with
  | nil =>
      refine ⟨g, rfl, hinv, rfl, fun x => rfl, fun x => rfl, fun x y => ?_⟩
      simp [glookup]
  | cons e es ih =>
      rw [List.map_cons, List.nodup_cons] at hnd
      rcases hes e (List.mem_cons_self _ _) with ⟨hek, hens, hend⟩
      rcases connectGroup_spec hinv hek hens hend with
        ⟨g1, hok1, hinv1, hlen1, hsome1, hval1, hew1⟩
      have hes2 : ∀ e2 ∈ es, (g1.getV e2.1).isSome = true ∧
          (∀ p ∈ e2.2, (g1.getV p.1).isSome = true ∧ p.1 ≠ e2.1) ∧
          (e2.2.map Prod.fst).Nodup := by
        intro e2 he2
        rcases hes e2 (List.mem_cons_of_mem _ he2) with ⟨h1, h2, h3⟩
        refine ⟨by rw [hsome1]; exact h1, ?_, h3⟩
        intro p hp
        rcases h2 p hp with ⟨h4, h5⟩
        exact ⟨by rw [hsome1]; exact h4, h5⟩
      rcases ih hinv1 hes2 hnd.2 with ⟨g', hok2, hinv2, hlen2, hsome2, hval2, hew2⟩
      refine ⟨g', ?_, hinv2, by rw [hlen2, hlen1], fun x => by rw [hsome2, hsome1],
        fun x => by rw [hval2, hval1], ?_⟩
      · unfold connectEdges
        rw [hok1]
        exact hok2
      · intro x y
        rw [hew2 x y]
        by_cases hx : x = e.1
        · have hrest : glookup es x = none := by
            unfold glookup
            have : es.find? (fun e2 => e2.1 == x) = none := by
              rw [List.find?_eq_none]
              intro e2 he2 hc
              refine hnd.1 ?_
              have he2x : e2.1 = x := by simpa using hc
              rw [show e.1 = e2.1 from hx.symm.trans he2x.symm]
              exact List.mem_map_of_mem Prod.fst he2
            rw [this]
            rfl
          have hcons : glookup (e :: es) x = some e.2 := by
            unfold glookup
            have hstep : List.find? (fun e2 : String × List (String × Int) =>
                e2.1 == x) (e :: es) = some e :=
              List.find?_cons_of_pos _ (by simpa using hx.symm)
            rw [hstep]
            rfl
          rw [hrest, hcons, hew1 x y, if_pos hx]
        · have hcons : glookup (e :: es) x = glookup es x := by
            unfold glookup
            have hstep : List.find? (fun e2 : String × List (String × Int) =>
                e2.1 == x) (e :: es) =
                List.find? (fun e2 : String × List (String × Int) => e2.1 == x) es :=
              List.find?_cons_of_neg _ (by simpa using fun hc : e.1 = x => hx hc.symm)
            rw [hstep]
          rw [hcons]
          cases hg : glookup es x with
          | some ns =>
              show (match lookupNs ns y with
                | some w2 => some w2
                | none => g1.edgeWeight x y) =
                (match lookupNs ns y with
                | some w2 => some w2
                | none => g.edgeWeight x y)
              cases hl : lookupNs ns y with
              | some w2 => rfl
              | none =>
                  show g1.edgeWeight x y = g.edgeWeight x y
                  rw [hew1 x y, if_neg hx]
          | none =>
              show g1.edgeWeight x y = g.edgeWeight x y
              rw [hew1 x y, if_neg hx]

theorem keyOfId_eq {g : Graph V} (hnd : (g.verts.map (fun v => v.id)).Nodup)
    {b : Vertex V} (hb : b ∈ g.verts) : g.keyOfId b.id = b.key := by
  unfold Graph.keyOfId Graph.findById
  rw [find?_id_of_mem hnd hb]
  rfl

theorem edgeWeight_none_of_empty_edges {g0 : Graph V}
    (h : ∀ k v, g0.getV k = some v → v.outgoingEdges = []) :
    ∀ x y, g0.edgeWeight x y = none := by
  intro x y
  unfold Graph.edgeWeight
  cases hx : g0.getV x with
  | none => cases hy : g0.getV y <;> rfl
  | some a =>
      cases hy : g0.getV y with
      | none => rfl
      | some b =>
          show edgeFind a.outgoingEdges b.id = none
          rw [h x a hx]
          rfl

/-- C8: encoding a reachable graph and decoding the record into a fresh
graph reproduces the vertex count, every key's value, and every directed
edge weight. -/
theorem Graph.gob_roundtrip (g : Graph V) (hg : Reachable g) :
    ∃ g', Graph.empty.gobDecode (g.gobEncode) = Except.ok g' ∧
      g'.verts.length = g.verts.length ∧
      (∀ k, (g'.getV k).map (fun v => v.value) = (g.getV k).map (fun v => v.value)) ∧
      (∀ k k2, g'.edgeWeight k k2 = g.edgeWeight k k2) := by
  have hinv := reachable_ginv hg
  have hKSkeys : ((g.verts.map (fun v => (v.key, v.value))).map Prod.fst) =
      g.verts.map (fun v => v.key) := by
    rw [List.map_map]
    rfl
  have hfresh : ∀ kv ∈ g.verts.map (fun v => (v.key, v.value)),
      (Graph.empty : Graph V).getV kv.1 = none := fun kv _ => rfl
  have hnd : ((g.verts.map (fun v => (v.key, v.value))).map Prod.fst).Nodup := by
    rw [hKSkeys]
    exact hinv.keysNodup
  have hchar := setFold_getV (g.verts.map (fun v => (v.key, v.value)))
    Graph.empty hfresh hnd
  have hKSfind : ∀ k, (g.verts.map (fun v => (v.key, v.value))).find?
      (fun kv => kv.1 == k) = (g.getV k).map (fun v => (v.key, v.value)) := by
    intro k
    rw [List.find?_map]
    rfl
  have hg1some : ∀ k a, g.getV k = some a →
      ∃ v1, ((g.verts.map (fun v => (v.key, v.value))).foldl
          (fun acc kv => acc.set kv.1 kv.2) Graph.empty).getV k = some v1 ∧
        v1.value = a.value ∧ v1.outgoingEdges = [] ∧ v1.incomingEdges = [] := by
    intro k a ha
    have hc := hchar k
    rw [hKSfind k, ha] at hc
    exact hc
  have hg1none : ∀ k, g.getV k = none →
      ((g.verts.map (fun v => (v.key, v.value))).foldl
        (fun acc kv => acc.set kv.1 kv.2) Graph.empty).getV k = none := by
    intro k hk
    have hc := hchar k
    rw [hKSfind k, hk] at hc
    exact hc
  have hg1inv : GInv ((g.verts.map (fun v => (v.key, v.value))).foldl
      (fun acc kv => acc.set kv.1 kv.2) Graph.empty) :=
    setFold_ginv _ Graph.empty ginv_empty
  have hg1len : ((g.verts.map (fun v => (v.key, v.value))).foldl
      (fun acc kv => acc.set kv.1 kv.2) Graph.empty).verts.length = g.verts.length := by
    rw [setFold_length _ Graph.empty hfresh hnd]
    simp [Graph.empty]
  obtain ⟨g1, hfold⟩ : ∃ g1 : Graph V,
      (g.verts.map (fun v => (v.key, v.value))).foldl
        (fun acc kv => acc.set kv.1 kv.2) Graph.empty = g1 := ⟨_, rfl⟩
  rw [hfold] at hg1some hg1none hg1inv hg1len
  have hg1empty : ∀ k v1, g1.getV k = some v1 → v1.outgoingEdges = [] := by
    intro k v1 h1
    cases hk : g.getV k with
    | none =>
        rw [hg1none k hk] at h1
        cases h1
    | some a =>
        rcases hg1some k a hk with ⟨v2, hv2, _, hout, _⟩
        rw [hv2] at h1
        cases h1
        exact hout
  have hg1ew : ∀ x y, g1.edgeWeight x y = none :=
    edgeWeight_none_of_empty_edges hg1empty
  have hes : ∀ e ∈ g.verts.map (fun v =>
      (v.key, v.outgoingEdges.map (fun p => (g.keyOfId p.1, p.2)))),
      (g1.getV e.1).isSome = true ∧
      (∀ p ∈ e.2, (g1.getV p.1).isSome = true ∧ p.1 ≠ e.1) ∧
      ((e.2.map Prod.fst).Nodup) := by
    intro e he
    rcases List.mem_map.1 he with ⟨v, hv, rfl⟩
    have hgv : g.getV v.key = some v := find?_key_of_mem hinv.keysNodup hv
    refine ⟨?_, ?_, ?_⟩
    · rcases hg1some v.key v hgv with ⟨v1, hv1, _, _, _⟩
      rw [hv1]
      rfl
    · intro p hp
      rcases List.mem_map.1 hp with ⟨q, hq, rfl⟩
      rcases hinv.outReg v hv q hq with ⟨b, hb, hbid⟩
      have hkb : g.keyOfId q.1 = b.key := by
        rw [← hbid]
        exact keyOfId_eq hinv.idsNodup hb
      have hgb : g.getV b.key = some b := find?_key_of_mem hinv.keysNodup hb
      constructor
      · rcases hg1some b.key b hgb with ⟨b1, hb1, _, _, _⟩
        show (g1.getV (g.keyOfId q.1)).isSome = true
        rw [hkb, hb1]
        rfl
      · show g.keyOfId q.1 ≠ v.key
        rw [hkb]
        intro hc
        have hbv : b = v := eq_of_key_eq hinv.keysNodup hb hv hc
        rw [hbv] at hbid
        exact hinv.noSelfOut v hv q hq (hbid ▸ rfl)
    · show ((v.outgoingEdges.map (fun p => (g.keyOfId p.1, p.2))).map Prod.fst).Nodup
      have heq : (v.outgoingEdges.map (fun p => (g.keyOfId p.1, p.2))).map Prod.fst =
          (v.outgoingEdges.map Prod.fst).map (fun i => g.keyOfId i) := by
        rw [List.map_map, List.map_map]
        rfl
      rw [heq]
      refine List.Nodup.map_on ?_ (hinv.outNodup v hv)
      intro i1 h1 i2 h2 hkeq
      rcases List.mem_map.1 h1 with ⟨p1, hp1, rfl⟩
      rcases List.mem_map.1 h2 with ⟨p2, hp2, rfl⟩
      rcases hinv.outReg v hv p1 hp1 with ⟨b1, hb1, hb1id⟩
      rcases hinv.outReg v hv p2 hp2 with ⟨b2, hb2, hb2id⟩
      rw [← hb1id, ← hb2id, keyOfId_eq hinv.idsNodup hb1,
        keyOfId_eq hinv.idsNodup hb2] at hkeq
      rw [← hb1id, ← hb2id, eq_of_key_eq hinv.keysNodup hb1 hb2 hkeq]
  have hesnd : ((g.verts.map (fun v =>
      (v.key, v.outgoingEdges.map (fun p => (g.keyOfId p.1, p.2))))).map
      Prod.fst).Nodup := by
    have heq : (g.verts.map (fun v =>
        (v.key, v.outgoingEdges.map (fun p => (g.keyOfId p.1, p.2))))).map Prod.fst =
        g.verts.map (fun v => v.key) := by
      rw [List.map_map]
      rfl
    rw [heq]
    exact hinv.keysNodup
  rcases connectEdges_spec hg1inv hes hesnd with
    ⟨g', hok, hginv', hlen, hsome, hval, hew⟩
  have hdec : Graph.empty.gobDecode (g.gobEncode) = Except.ok g' := by
    show connectEdges ((g.verts.map (fun v => (v.key, v.value))).foldl
      (fun acc kv => acc.set kv.1 kv.2) Graph.empty)
      (g.verts.map (fun v =>
        (v.key, v.outgoingEdges.map (fun p => (g.keyOfId p.1, p.2))))) = Except.ok g'
    rw [hfold]
    exact hok
  refine ⟨g', hdec, ?_, ?_, ?_⟩
  · rw [hlen, hg1len]
  · intro k
    rw [hval k]
    cases hk : g.getV k with
    | none =>
        rw [hg1none k hk]
    | some a =>
        rcases hg1some k a hk with ⟨v1, hv1, hval1, _, _⟩
        rw [hv1]
        show some v1.value = some a.value
        rw [hval1]
  · intro x y
    rw [hew x y]
    have hglookup : glookup (g.verts.map (fun v =>
        (v.key, v.outgoingEdges.map (fun p => (g.keyOfId p.1, p.2))))) x =
        (g.getV x).map (fun v =>
          v.outgoingEdges.map (fun p => (g.keyOfId p.1, p.2))) := by
      unfold glookup
      rw [List.find?_map, Option.map_map]
      rfl
    rw [hglookup]
    cases hx : g.getV x with
    | none =>
        show g1.edgeWeight x y = g.edgeWeight x y
        rw [hg1ew]
        unfold Graph.edgeWeight
        rw [hx]
    | some a =>
        show (match lookupNs (a.outgoingEdges.map (fun p => (g.keyOfId p.1, p.2))) y with
          | some w2 => some w2
          | none => g1.edgeWeight x y) = g.edgeWeight x y
        have hamem := getV_mem hx
        cases hy : g.getV y with
        | none =>
            have hln : lookupNs (a.outgoingEdges.map
                (fun p => (g.keyOfId p.1, p.2))) y = none := by
              unfold lookupNs
              have hfn : (a.outgoingEdges.map (fun p => (g.keyOfId p.1, p.2))).find?
                  (fun p => p.1 == y) = none := by
                rw [List.find?_eq_none]
                intro p hp hc
                rcases List.mem_map.1 hp with ⟨q, hq, rfl⟩
                rcases hinv.outReg a hamem q hq with ⟨b, hb, hbid⟩
                have : g.keyOfId q.1 = b.key := by
                  rw [← hbid]
                  exact keyOfId_eq hinv.idsNodup hb
                rw [getV_eq_none_iff] at hy
                refine hy b hb ?_
                rw [← this]
                simpa using hc
              rw [hfn]
              rfl
            rw [hln]
            show g1.edgeWeight x y = g.edgeWeight x y
            rw [hg1ew]
            unfold Graph.edgeWeight
            rw [hx, hy]
        | some b =>
            have hbmem := getV_mem hy
            have hln : lookupNs (a.outgoingEdges.map
                (fun p => (g.keyOfId p.1, p.2))) y = edgeFind a.outgoingEdges b.id := by
              unfold lookupNs
              rw [List.find?_map, Option.map_map]
              show (a.outgoingEdges.find? ((fun p : String × Int => p.1 == y) ∘
                fun p => (g.keyOfId p.1, p.2))).map _ = _
              have hcongr : a.outgoingEdges.find? ((fun p : String × Int => p.1 == y) ∘
                  fun p => (g.keyOfId p.1, p.2)) =
                  a.outgoingEdges.find? (fun p => p.1 == b.id) := by
                refine find?_congr_mem ?_
                intro q hq
                rcases hinv.outReg a hamem q hq with ⟨c, hc, hcid⟩
                have hkc : g.keyOfId q.1 = c.key := by
                  rw [← hcid]
                  exact keyOfId_eq hinv.idsNodup hc
                show (g.keyOfId q.1 == y) = (q.1 == b.id)
                by_cases hqb : q.1 = b.id
                · have : c = b := eq_of_id_eq hinv.idsNodup hc hbmem (hcid.trans hqb)
                  rw [hkc, this, getV_some_key hy, hqb]
                  simp
                · have hcb : ¬ c.key = y := by
                    intro hcy
                    have : c = b :=
                      eq_of_key_eq hinv.keysNodup hc hbmem (hcy.trans (getV_some_key hy).symm)
                    exact hqb (hcid.symm.trans (by rw [this]))
                  rw [hkc]
                  simp [hcb, hqb]
              rw [hcongr]
              rfl
            rw [hln]
            show (match edgeFind a.outgoingEdges b.id with
              | some w2 => some w2
              | none => g1.edgeWeight x y) = g.edgeWeight x y
            have hrhs : g.edgeWeight x y = edgeFind a.outgoingEdges b.id := by
              unfold Graph.edgeWeight
              rw [hx, hy]
            rw [hrhs]
            cases edgeFind a.outgoingEdges b.id with
            | some w2 => rfl
            | none =>
                show g1.edgeWeight x y = none
                rw [hg1ew]

/-- Witness for C8 at the example graph. -/
theorem Graph.gob_roundtrip_witness :
    ∃ g', (Graph.empty : Graph Int).gobDecode exampleGraph.gobEncode = Except.ok g' ∧
      g'.verts.length = exampleGraph.verts.length ∧
      (∀ k, (g'.getV k).map (fun v => v.value) =
        (exampleGraph.getV k).map (fun v => v.value)) ∧
      (∀ k k2, g'.edgeWeight k k2 = exampleGraph.edgeWeight k k2) :=
  Graph.gob_roundtrip exampleGraph exampleGraph_reachable

/-! ### Heap lemmas for the search-loop termination proof -/

theorem set_get?_self : ∀ (l : List Item) (i : Nat) (a : Item),
    l.get? i = some a → l.set i a = l
  | [], _, _, h => by cases h
  | b :: t, 0, a, h => by
      have hba : b = a := by
        have h2 : some b = some a := h
        injection h2
      show a :: t = b :: t
      rw [hba]
  | b :: t, i + 1, a, h => by
      show b :: t.set i a = b :: t
      rw [set_get?_self t i a h]

theorem cons_set_perm : ∀ (t : List Item) (j : Nat) (a b : Item),
    t.get? j = some b → (b :: t.set j a).Perm (a :: t)
  | [], _, _, _, h => by cases h
  | c :: t, 0, a, b, h => by
      have hcb : c = b := by
        have h2 : some c = some b := h
        injection h2
      show (b :: a :: t).Perm (a :: c :: t)
      rw [hcb]
      exact List.Perm.swap a b t
  | c :: t, j + 1, a, b, h => by
      show (b :: c :: t.set j a).Perm (a :: c :: t)
      refine ((List.Perm.swap c b _).trans ?_)
      refine (((cons_set_perm t j a b h).cons c).trans ?_)
      exact List.Perm.swap a c t

theorem swap_set_perm : ∀ (l : List Item) (i j : Nat) (a b : Item), i < j →
    l.get? i = some a → l.get? j = some b → ((l.set i b).set j a).Perm l
  | [], _, _, _, _, _, ha, _ => by cases ha
  | c :: t, 0, j, a, b, hij, ha, hb => by
      have hca : c = a := by
        have h2 : some c = some a := ha
        injection h2
      match j, hij with
      | j' + 1, _ =>
          show (b :: t.set j' a).Perm (c :: t)
          rw [hca]
          exact cons_set_perm t j' a b hb
  | c :: t, i + 1, j, a, b, hij, ha, hb => by
      match j, hij with
      | j' + 1, hij =>
          show (c :: (t.set i b).set j' a).Perm (c :: t)
          exact (swap_set_perm t i j' a b (Nat.lt_of_succ_lt_succ hij) ha hb).cons c

theorem hswap_perm (l : List Item) (i j : Nat) : (hswap l i j).Perm l := by
  unfold hswap
  cases hi : l.get? i with
  | none => exact List.Perm.refl l
  | some a =>
      cases hj : l.get? j with
      | none => exact List.Perm.refl l
      | some b =>
          show ((l.set i b).set j a).Perm l
          rcases Nat.lt_trichotomy i j with hij | hij | hij
          · exact swap_set_perm l i j a b hij hi hj
          · subst hij
            have hab : a = b := by
              rw [hi] at hj
              injection hj
            rw [List.set_set, hab, set_get?_self l i b hj]
          · rw [List.set_comm _ _ _ (fun hc : i = j => Nat.lt_irrefl i (hc ▸ hij))]
            exact swap_set_perm l j i b a hij hj hi

theorem hupF_perm : ∀ (fuel : Nat) (l : List Item) (j : Nat), (hupF fuel l j).Perm l := by
  intro fuel
  induction fuel with
  | zero => intro l j; exact List.Perm.refl l
  | succ fuel ih =>
      intro l j
      show (hupF (fuel + 1) l j).Perm l
      unfold hupF
      by_cases hj : j == 0
      · rw [if_pos hj]
      · rw [if_neg hj]
        by_cases hless : lessAt l j ((j - 1) / 2)
        · rw [if_pos hless]
          exact (ih (hswap l ((j - 1) / 2) j) ((j - 1) / 2)).trans
            (hswap_perm l ((j - 1) / 2) j)
        · rw [if_neg hless]

theorem hdownF_perm : ∀ (fuel : Nat) (l : List Item) (i n : Nat),
    ((hdownF fuel l i n).1).Perm l := by
  intro fuel
  induction fuel with
  | zero => intro l i n; exact List.Perm.refl l
  | succ fuel ih =>
      intro l i n
      unfold hdownF
      by_cases h1 : 2 * i + 1 < n
      · rw [if_pos h1]
        by_cases hless : lessAt l
            (if 2 * i + 1 + 1 < n && lessAt l (2 * i + 1 + 1) (2 * i + 1) then 2 * i + 1 + 1
             else 2 * i + 1) i
        · rw [if_pos hless]
          exact (ih _ _ n).trans (hswap_perm l _ _)
        · rw [if_neg hless]
      · rw [if_neg h1]

theorem heapPush_perm (l : List Item) (x : Item) : (heapPush l x).Perm (x :: l) :=
  (hupF_perm _ _ _).trans (List.perm_append_singleton x l)

theorem heapPop_perm : ∀ {l : List Item} {x : Item} {q : List Item},
    heapPop l = some (x, q) → l.Perm (x :: q) := by
  intro l x q h
  match l, h with
  | c :: t, h =>
      unfold heapPop at h
      simp only at h
      cases hlast : ((hdown (hswap (c :: t) 0 ((c :: t).length - 1)) 0
          ((c :: t).length - 1)).1).getLast? with
      | none => rw [hlast] at h; cases h
      | some x2 =>
          rw [hlast] at h
          have hx2 : x2 = x ∧ ((hdown (hswap (c :: t) 0 ((c :: t).length - 1)) 0
              ((c :: t).length - 1)).1).dropLast = q := by
            have h2 := h
            injection h2 with h3
            injection h3 with h4 h5
            exact ⟨h4, h5⟩
          rcases hx2 with ⟨rfl, rfl⟩
          rcases List.getLast?_eq_some_iff.1 hlast with ⟨ys, hys⟩
          have hperm : ((hdown (hswap (c :: t) 0 ((c :: t).length - 1)) 0
              ((c :: t).length - 1)).1).Perm (c :: t) :=
            (hdownF_perm _ _ _ _).trans (hswap_perm _ _ _)
          rw [hys] at hperm
          rw [hys, List.dropLast_concat]
          exact (hperm.symm).trans (List.perm_append_singleton _ ys)

theorem hswap_get?_ne {l : List Item} {i j k : Nat} (hki : k ≠ i) (hkj : k ≠ j) :
    (hswap l i j).get? k = l.get? k := by
  unfold hswap
  cases hi : l.get? i with
  | none => rfl
  | some a =>
      cases hj : l.get? j with
      | none => rfl
      | some b =>
          show ((l.set i b).set j a).get? k = l.get? k
          rw [List.get?_eq_getElem?, List.get?_eq_getElem?,
            List.getElem?_set_ne (fun hc : j = k => hkj hc.symm),
            List.getElem?_set_ne (fun hc : i = k => hki hc.symm)]

theorem hswap_get?_snd {l : List Item} {i j : Nat} (hi : i < l.length)
    (hj : j < l.length) : (hswap l i j).get? j = l.get? i := by
  obtain ⟨a, ha⟩ : ∃ a, l.get? i = some a := ⟨l.get ⟨i, hi⟩, List.get?_eq_get hi⟩
  obtain ⟨b, hb⟩ : ∃ b, l.get? j = some b := ⟨l.get ⟨j, hj⟩, List.get?_eq_get hj⟩
  unfold hswap
  rw [ha, hb]
  show ((l.set i b).set j a).get? j = some a
  have hj2 : j < (l.set i b).length := by
    rw [List.length_set]
    exact hj
  rw [List.get?_eq_getElem?, List.getElem?_set_self hj2]

theorem hupF_get?_gt : ∀ (fuel : Nat) (l : List Item) (j k : Nat), j < k →
    (hupF fuel l j).get? k = l.get? k := by
  intro fuel
  induction fuel with
  | zero => intro l j k _; rfl
  | succ fuel ih =>
      intro l j k hjk
      unfold hupF
      by_cases hj : j == 0
      · rw [if_pos hj]
      · rw [if_neg hj]
        by_cases hless : lessAt l j ((j - 1) / 2)
        · rw [if_pos hless]
          have hj0 : j ≠ 0 := by simpa using hj
          have hi : (j - 1) / 2 < j := by omega
          rw [ih (hswap l ((j - 1) / 2) j) ((j - 1) / 2) k (Nat.lt_trans hi hjk)]
          exact hswap_get?_ne (Nat.ne_of_gt (Nat.lt_trans hi hjk)) (Nat.ne_of_gt hjk)
        · rw [if_neg hless]

theorem hdownF_get?_ge : ∀ (fuel : Nat) (l : List Item) (i n k : Nat), n ≤ k →
    ((hdownF fuel l i n).1).get? k = l.get? k := by
  intro fuel
  induction fuel with
  | zero => intro l i n k _; rfl
  | succ fuel ih =>
      intro l i n k hnk
      unfold hdownF
      by_cases h1 : 2 * i + 1 < n
      · rw [if_pos h1]
        have hik : i < k := by omega
        by_cases hc : (decide (2 * i + 1 + 1 < n) && lessAt l (2 * i + 1 + 1) (2 * i + 1))
        · rw [if_pos hc]
          have hn2 : 2 * i + 1 + 1 < n := by
            have hc2 := hc
            rw [Bool.and_eq_true] at hc2
            exact of_decide_eq_true hc2.1
          by_cases hless : lessAt l (2 * i + 1 + 1) i
          · rw [if_pos hless]
            rw [ih (hswap l i (2 * i + 1 + 1)) (2 * i + 1 + 1) n k hnk]
            exact hswap_get?_ne (Nat.ne_of_gt (by omega)) (Nat.ne_of_gt (by omega))
          · rw [if_neg hless]
        · rw [if_neg hc]
          by_cases hless : lessAt l (2 * i + 1) i
          · rw [if_pos hless]
            rw [ih (hswap l i (2 * i + 1)) (2 * i + 1) n k hnk]
            exact hswap_get?_ne (Nat.ne_of_gt (by omega)) (Nat.ne_of_gt (by omega))
          · rw [if_neg hless]
      · rw [if_neg h1]

theorem heapRemove_perm (l : List Item) (i : Nat) (hi : i < l.length) :
    l.Perm (l.get ⟨i, hi⟩ :: heapRemove l i) := by
  have hre : heapRemove l i =
      (if l.length - 1 ≠ i then
        (if (hdown (hswap l i (l.length - 1)) i (l.length - 1)).2 > i then
          (hdown (hswap l i (l.length - 1)) i (l.length - 1)).1
        else hup (hdown (hswap l i (l.length - 1)) i (l.length - 1)).1 i)
      else l).dropLast := rfl
  rw [hre]
  by_cases hn : l.length - 1 ≠ i
  · rw [if_pos hn]
    have hnlt : l.length - 1 < l.length := by omega
    have hin : i < l.length - 1 := by omega
    obtain ⟨fin, hfin⟩ : ∃ fin : List Item,
        (if (hdown (hswap l i (l.length - 1)) i (l.length - 1)).2 > i then
          (hdown (hswap l i (l.length - 1)) i (l.length - 1)).1
        else hup (hdown (hswap l i (l.length - 1)) i (l.length - 1)).1 i) = fin := ⟨_, rfl⟩
    rw [hfin]
    have hperm : fin.Perm l := by
      rw [← hfin]
      by_cases hgt : (hdown (hswap l i (l.length - 1)) i (l.length - 1)).2 > i
      · rw [if_pos hgt]
        exact (hdownF_perm _ _ _ _).trans (hswap_perm _ _ _)
      · rw [if_neg hgt]
        exact (hupF_perm _ _ _).trans ((hdownF_perm _ _ _ _).trans (hswap_perm _ _ _))
    have hget : fin.get? (l.length - 1) = some (l.get ⟨i, hi⟩) := by
      have hsw : (hswap l i (l.length - 1)).get? (l.length - 1) = l.get? i :=
        hswap_get?_snd hi hnlt
      have hdow : ((hdown (hswap l i (l.length - 1)) i (l.length - 1)).1).get?
          (l.length - 1) = (hswap l i (l.length - 1)).get? (l.length - 1) :=
        hdownF_get?_ge _ _ _ _ _ (Nat.le_refl _)
      rw [← hfin]
      by_cases hgt : (hdown (hswap l i (l.length - 1)) i (l.length - 1)).2 > i
      · rw [if_pos hgt, hdow, hsw, List.get?_eq_get hi]
      · rw [if_neg hgt]
        unfold hup
        rw [hupF_get?_gt _ _ _ _ hin, hdow, hsw, List.get?_eq_get hi]
    have hflen : fin.length = l.length := hperm.length_eq
    have hlast : fin.getLast? = some (l.get ⟨i, hi⟩) := by
      rw [List.getLast?_eq_get?, hflen, hget]
    rcases List.getLast?_eq_some_iff.1 hlast with ⟨ys, hys⟩
    rw [hys, List.dropLast_concat]
    rw [hys] at hperm
    exact (hperm.symm).trans (List.perm_append_singleton _ ys)
  · rw [if_neg hn]
    have hieq : i = l.length - 1 := by omega
    have hne : l ≠ [] := by
      intro hc
      rw [hc] at hi
      cases hi
    have h1 : l.dropLast ++ [l.getLast hne] = l := List.dropLast_concat_getLast hne
    have h2 : l.getLast hne = l.get ⟨i, hi⟩ := by
      subst hieq
      rw [List.getLast_eq_get]
    rw [← h2]
    exact (List.Perm.of_eq h1.symm).trans (List.perm_append_singleton _ _)

/-- The possible closed/open-list keys over a graph: the nil pointer and
the registered vertex identities (used to bound the search loop). -/
def keySet (g : Graph V) : List (Option Nat) :=
  none :: g.verts.map (fun v => some v.id)

theorem olookup_mem {l : List (Option Nat × Item)} {k : Option Nat} {x : Item}
    (h : olookup l k = some x) : (k, x) ∈ l := by
  simp only [olookup, Option.map_eq_some'] at h
  obtain ⟨p, hp, hx⟩ := h
  have hk : p.1 = k := by simpa using List.find?_some hp
  have hm := List.mem_of_find?_eq_some hp
  have hpe : p = (k, x) := by
    cases p
    simp_all
  rwa [hpe] at hm

theorem olookup_eq_none_iff {l : List (Option Nat × Item)} {k : Option Nat} :
    olookup l k = none ↔ ∀ p ∈ l, p.1 ≠ k := by
  simp [olookup, List.find?_eq_none]

theorem olookup_of_mem {l : List (Option Nat × Item)}
    (hnd : (l.map Prod.fst).Nodup) {k : Option Nat} {x : Item}
    (hmem : (k, x) ∈ l) : olookup l k = some x := by
  induction l with
  | nil => cases hmem
  | cons a l ih =>
      rw [List.map_cons, List.nodup_cons] at hnd
      rcases List.mem_cons.1 hmem with rfl | hm2
      · simp [olookup]
      · have hne : ¬ a.1 = k := by
          intro hc
          exact hnd.1 (by rw [hc]; exact List.mem_map_of_mem _ hm2)
        unfold olookup
        rw [List.find?_cons_of_neg _ (by simpa using hne)]
        exact ih hnd.2 hm2

theorem assoc_split {l : List (Option Nat × Item)} {k : Option Nat} {x : Item}
    (hnd : (l.map Prod.fst).Nodup) (hmem : (k, x) ∈ l) :
    ∃ A B, l = A ++ (k, x) :: B ∧ (∀ p ∈ A, p.1 ≠ k) ∧ (∀ p ∈ B, p.1 ≠ k) := by
  obtain ⟨A, B, rfl⟩ := List.append_of_mem hmem
  rw [List.map_append, List.map_cons] at hnd
  rcases List.nodup_append.1 hnd with ⟨hA, hB, hdisj⟩
  rw [List.nodup_cons] at hB
  refine ⟨A, B, rfl, ?_, ?_⟩
  · intro p hp hpk
    exact hdisj (List.mem_map.2 ⟨p, hp, hpk⟩) (List.mem_cons_self _ _)
  · intro p hp hpk
    exact hB.1 (List.mem_map.2 ⟨p, hp, hpk⟩)

theorem odel_eq_of_split {A B : List (Option Nat × Item)} {k : Option Nat} {x : Item}
    (hA : ∀ p ∈ A, p.1 ≠ k) (hB : ∀ p ∈ B, p.1 ≠ k) :
    odel (A ++ (k, x) :: B) k = A ++ B := by
  unfold odel
  rw [List.filter_append]
  have h1 : A.filter (fun p => !(p.1 == k)) = A :=
    List.filter_eq_self.2 (fun p hp => by simpa using hA p hp)
  have h2 : ((k, x) :: B).filter (fun p => !(p.1 == k)) = B := by
    rw [List.filter_cons_of_neg (by simp)]
    exact List.filter_eq_self.2 (fun p hp => by simpa using hB p hp)
  rw [h1, h2]

theorem oset_eq_of_split {A B : List (Option Nat × Item)} {k : Option Nat} {x it : Item}
    (hA : ∀ p ∈ A, p.1 ≠ k) (hB : ∀ p ∈ B, p.1 ≠ k) :
    oset (A ++ (k, x) :: B) k it = A ++ (k, it) :: B := by
  unfold oset
  rw [if_pos (List.any_eq_true.2 ⟨(k, x), by simp, by simp⟩)]
  rw [List.map_append, List.map_cons]
  have h1 : A.map (fun p => if p.1 == k then (k, it) else p) = A := by
    refine (List.map_congr_left ?_).trans (List.map_id A)
    intro p hp
    simp [hA p hp]
  have h2 : B.map (fun p => if p.1 == k then (k, it) else p) = B := by
    refine (List.map_congr_left ?_).trans (List.map_id B)
    intro p hp
    simp [hB p hp]
  rw [h1, h2]
  simp

theorem oset_eq_append_of_none {l : List (Option Nat × Item)} {k : Option Nat}
    {it : Item} (h : olookup l k = none) : oset l k it = l ++ [(k, it)] := by
  unfold oset
  have hany : l.any (fun p => p.1 == k) = false := by
    by_cases hc : l.any (fun p => p.1 == k)
    · exfalso
      rcases List.any_eq_true.1 hc with ⟨p, hp, hpk⟩
      exact (olookup_eq_none_iff.1 h) p hp (by simpa using hpk)
    · rwa [Bool.not_eq_true] at hc
  rw [hany]
  simp

theorem mem_odel {l : List (Option Nat × Item)} {k : Option Nat}
    {p : Option Nat × Item} (h : p ∈ odel l k) : p ∈ l ∧ p.1 ≠ k := by
  refine ⟨List.mem_of_mem_filter h, ?_⟩
  have := List.of_mem_filter h
  simpa using this

/-- Loop invariant of the A* search: the heap holds exactly the open
list's items; open entries are keyed by their item's vertex, with unique
keys drawn from the graph's key set, disjoint from the closed keys,
which are unique and also drawn from the key set. -/
structure LoopInv (g : Graph V) (queue : List Item)
    (openL closedL : List (Option Nat × Item)) : Prop where
  qPerm : queue.Perm (openL.map Prod.snd)
  oKeys : ∀ p ∈ openL, p.2.v = p.1
  oNodup : (openL.map Prod.fst).Nodup
  disj : ∀ p ∈ openL, p.1 ∉ closedL.map Prod.fst
  cNodup : (closedL.map Prod.fst).Nodup
  cSub : ∀ k ∈ closedL.map Prod.fst, k ∈ keySet g
  oSub : ∀ p ∈ openL, p.1 ∈ keySet g

theorem expandStep_closed {g : Graph V} {endKey : String} {h : String → String → Int}
    {currentV : Option Nat} {distance : Int} {closedL : List (Option Nat × Item)}
    {st : List Item × List (Option Nat × Item)} {p : Nat × Int}
    (hc : (olookup closedL (some p.1)).isSome = true) :
    expandStep g endKey h currentV distance closedL st p = st := by
  unfold expandStep
  rw [if_pos hc]

theorem expandStep_skip {g : Graph V} {endKey : String} {h : String → String → Int}
    {currentV : Option Nat} {distance : Int} {closedL : List (Option Nat × Item)}
    {st : List Item × List (Option Nat × Item)} {p : Nat × Int} {md : Item}
    (hc : ¬ (olookup closedL (some p.1)).isSome = true)
    (hmd : olookup st.2 (some p.1) = some md)
    (hlt : md.distanceFromStart < distance + p.2) :
    expandStep g endKey h currentV distance closedL st p = st := by
  unfold expandStep
  rw [if_neg hc, hmd]
  show (match (if md.distanceFromStart < distance + p.2 then none
      else some (heapRemove st.1 (st.1.findIdx (fun x => x == md)))) with
    | none => st
    | some q => (heapPush q ⟨some p.1, currentV, distance + p.2,
        distance + p.2 + h (g.keyOfId p.1) endKey⟩,
      oset st.2 (some p.1) ⟨some p.1, currentV, distance + p.2,
        distance + p.2 + h (g.keyOfId p.1) endKey⟩)) = st
  rw [if_pos hlt]

theorem expandStep_replace {g : Graph V} {endKey : String} {h : String → String → Int}
    {currentV : Option Nat} {distance : Int} {closedL : List (Option Nat × Item)}
    {st : List Item × List (Option Nat × Item)} {p : Nat × Int} {md : Item}
    (hc : ¬ (olookup closedL (some p.1)).isSome = true)
    (hmd : olookup st.2 (some p.1) = some md)
    (hlt : ¬ md.distanceFromStart < distance + p.2) :
    expandStep g endKey h currentV distance closedL st p =
      (heapPush (heapRemove st.1 (st.1.findIdx (fun x => x == md)))
        ⟨some p.1, currentV, distance + p.2,
          distance + p.2 + h (g.keyOfId p.1) endKey⟩,
       oset st.2 (some p.1)
        ⟨some p.1, currentV, distance + p.2,
          distance + p.2 + h (g.keyOfId p.1) endKey⟩) := by
  unfold expandStep
  rw [if_neg hc, hmd]
  show (match (if md.distanceFromStart < distance + p.2 then none
      else some (heapRemove st.1 (st.1.findIdx (fun x => x == md)))) with
    | none => st
    | some q => (heapPush q ⟨some p.1, currentV, distance + p.2,
        distance + p.2 + h (g.keyOfId p.1) endKey⟩,
      oset st.2 (some p.1) ⟨some p.1, currentV, distance + p.2,
        distance + p.2 + h (g.keyOfId p.1) endKey⟩)) = _
  rw [if_neg hlt]

theorem expandStep_push {g : Graph V} {endKey : String} {h : String → String → Int}
    {currentV : Option Nat} {distance : Int} {closedL : List (Option Nat × Item)}
    {st : List Item × List (Option Nat × Item)} {p : Nat × Int}
    (hc : ¬ (olookup closedL (some p.1)).isSome = true)
    (hmd : olookup st.2 (some p.1) = none) :
    expandStep g endKey h currentV distance closedL st p =
      (heapPush st.1
        ⟨some p.1, currentV, distance + p.2,
          distance + p.2 + h (g.keyOfId p.1) endKey⟩,
       oset st.2 (some p.1)
        ⟨some p.1, currentV, distance + p.2,
          distance + p.2 + h (g.keyOfId p.1) endKey⟩) := by
  unfold expandStep
  rw [if_neg hc, hmd]

/-- Fold-state invariant during neighbor expansion: the heap matches the
open list, every open entry is keyed by its item's vertex, the open keys
are unique, none of them is closed, and all are drawn from the graph's
key set. -/
structure StInv (g : Graph V) (closedL : List (Option Nat × Item))
    (st : List Item × List (Option Nat × Item)) : Prop where
  qPerm : st.1.Perm (st.2.map Prod.snd)
  oKeys : ∀ p ∈ st.2, p.2.v = p.1
  oNodup : (st.2.map Prod.fst).Nodup
  disj : ∀ p ∈ st.2, p.1 ∉ closedL.map Prod.fst
  oSub : ∀ p ∈ st.2, p.1 ∈ keySet g

theorem expandStep_stinv {g : Graph V} {endKey : String} {h : String → String → Int}
    {currentV : Option Nat} {distance : Int} {closedL : List (Option Nat × Item)}
    {st : List Item × List (Option Nat × Item)} {p : Nat × Int}
    (hinv : StInv g closedL st) (hk : some p.1 ∈ keySet g) :
    StInv g closedL (expandStep g endKey h currentV distance closedL st p) := by
  by_cases hc : (olookup closedL (some p.1)).isSome = true
  · rw [expandStep_closed hc]
    exact hinv
  · have hclnone : olookup closedL (some p.1) = none := by
      cases hcl : olookup closedL (some p.1) with
      | none => rfl
      | some y => exact absurd (by rw [hcl]; rfl) hc
    have hnclosed : some p.1 ∉ closedL.map Prod.fst := by
      intro hmem
      rcases List.mem_map.1 hmem with ⟨q, hq, hq1⟩
      exact (olookup_eq_none_iff.1 hclnone) q hq hq1
    cases hmd : olookup st.2 (some p.1) with
    | some md =>
        by_cases hlt : md.distanceFromStart < distance + p.2
        · rw [expandStep_skip hc hmd hlt]
          exact hinv
        · rw [expandStep_replace hc hmd hlt]
          obtain ⟨it, hit⟩ : ∃ it : Item,
              (⟨some p.1, currentV, distance + p.2,
                distance + p.2 + h (g.keyOfId p.1) endKey⟩ : Item) = it := ⟨_, rfl⟩
          rw [hit]
          have hmem2 : (some p.1, md) ∈ st.2 := olookup_mem hmd
          obtain ⟨A, B, hsplit, hA, hB⟩ := assoc_split hinv.oNodup hmem2
          have hoset : oset st.2 (some p.1) it = A ++ (some p.1, it) :: B := by
            rw [hsplit]
            exact oset_eq_of_split hA hB
          have hmemq : md ∈ st.1 :=
            hinv.qPerm.mem_iff.2 (List.mem_map.2 ⟨(some p.1, md), hmem2, rfl⟩)
          have hidx : st.1.findIdx (fun x => x == md) < st.1.length :=
            List.findIdx_lt_length_of_exists ⟨md, hmemq, by simp⟩
          have hget : st.1.get ⟨st.1.findIdx (fun x => x == md), hidx⟩ = md :=
            eq_of_beq (@List.findIdx_get _ _ _ hidx)
          have hrem : st.1.Perm (md :: heapRemove st.1 (st.1.findIdx (fun x => x == md))) := by
            have := heapRemove_perm st.1 (st.1.findIdx (fun x => x == md)) hidx
            rwa [hget] at this
          have hmid : (st.2.map Prod.snd).Perm (md :: (A.map Prod.snd ++ B.map Prod.snd)) := by
            rw [hsplit, List.map_append, List.map_cons]
            exact List.perm_middle
          have hrem2 : (heapRemove st.1 (st.1.findIdx (fun x => x == md))).Perm
              (A.map Prod.snd ++ B.map Prod.snd) :=
            (hrem.symm.trans (hinv.qPerm.trans hmid)).cons_inv
          refine ⟨?_, ?_, ?_, ?_, ?_⟩
          · rw [hoset]
            refine (heapPush_perm _ it).trans ?_
            rw [List.map_append, List.map_cons]
            exact ((hrem2.cons it).trans List.perm_middle.symm)
          · intro q hq
            rw [hoset] at hq
            rcases List.mem_append.1 hq with hqa | hqc
            · exact hinv.oKeys q (by rw [hsplit]; exact List.mem_append_left _ hqa)
            · rcases List.mem_cons.1 hqc with rfl | hqb
              · rw [← hit]
              · exact hinv.oKeys q
                  (by rw [hsplit]; exact List.mem_append_right _ (List.mem_cons_of_mem _ hqb))
          · rw [hoset]
            have : (A ++ (some p.1, it) :: B).map Prod.fst
                = (A ++ (some p.1, md) :: B).map Prod.fst := by
              rw [List.map_append, List.map_append, List.map_cons, List.map_cons]
            rw [this, ← hsplit]
            exact hinv.oNodup
          · intro q hq
            rw [hoset] at hq
            rcases List.mem_append.1 hq with hqa | hqc
            · exact hinv.disj q (by rw [hsplit]; exact List.mem_append_left _ hqa)
            · rcases List.mem_cons.1 hqc with rfl | hqb
              · exact hnclosed
              · exact hinv.disj q
                  (by rw [hsplit]; exact List.mem_append_right _ (List.mem_cons_of_mem _ hqb))
          · intro q hq
            rw [hoset] at hq
            rcases List.mem_append.1 hq with hqa | hqc
            · exact hinv.oSub q (by rw [hsplit]; exact List.mem_append_left _ hqa)
            · rcases List.mem_cons.1 hqc with rfl | hqb
              · exact hk
              · exact hinv.oSub q
                  (by rw [hsplit]; exact List.mem_append_right _ (List.mem_cons_of_mem _ hqb))
    | none =>
        rw [expandStep_push hc hmd]
        obtain ⟨it, hit⟩ : ∃ it : Item,
            (⟨some p.1, currentV, distance + p.2,
              distance + p.2 + h (g.keyOfId p.1) endKey⟩ : Item) = it := ⟨_, rfl⟩
        rw [hit, oset_eq_append_of_none hmd]
        have hnm : some p.1 ∉ st.2.map Prod.fst := by
          intro hmem
          rcases List.mem_map.1 hmem with ⟨q, hq, hq1⟩
          exact (olookup_eq_none_iff.1 hmd) q hq hq1
        refine ⟨?_, ?_, ?_, ?_, ?_⟩
        · refine (heapPush_perm _ it).trans ?_
          rw [List.map_append]
          exact ((hinv.qPerm.cons it).trans (List.perm_append_singleton it _).symm).trans
            (List.Perm.refl _)
        · intro q hq
          rcases List.mem_append.1 hq with hqa | hqb
          · exact hinv.oKeys q hqa
          · rcases List.mem_singleton.1 hqb with rfl
            rw [← hit]
        · rw [List.map_append]
          refine List.Nodup.append hinv.oNodup (by simp) ?_
          intro a ha hb
          simp only [List.map_cons, List.map_nil, List.mem_singleton] at hb
          subst hb
          exact hnm ha
        · intro q hq
          rcases List.mem_append.1 hq with hqa | hqb
          · exact hinv.disj q hqa
          · rcases List.mem_singleton.1 hqb with rfl
            exact hnclosed
        · intro q hq
          rcases List.mem_append.1 hq with hqa | hqb
          · exact hinv.oSub q hqa
          · rcases List.mem_singleton.1 hqb with rfl
            exact hk

theorem foldl_expandStep_stinv {g : Graph V} {endKey : String}
    {h : String → String → Int} {currentV : Option Nat} {distance : Int}
    {closedL : List (Option Nat × Item)} :
    ∀ (ns : List (Nat × Int)) {st : List Item × List (Option Nat × Item)},
      StInv g closedL st → (∀ q ∈ ns, some q.1 ∈ keySet g) →
      StInv g closedL (ns.foldl (expandStep g endKey h currentV distance closedL) st)
  | [], _, hinv, _ => hinv
  | a :: t, _, hinv, hns =>
      foldl_expandStep_stinv t
        (expandStep_stinv hinv (hns a (List.mem_cons_self _ _)))
        (fun q hq => hns q (List.mem_cons_of_mem _ hq))

theorem outgoingOf_keySet {g : Graph V} (hg : GInv g) (cur : Option Nat) :
    ∀ q ∈ g.outgoingOf cur, some q.1 ∈ keySet g := by
  intro q hq
  cases cur with
  | none => cases hq
  | some cid =>
      have hq2 : q ∈ (match g.findById cid with
          | none => ([] : List (Nat × Int))
          | some cv => cv.outgoingEdges) := hq
      cases hfind : g.findById cid with
      | none => rw [hfind] at hq2; cases hq2
      | some cv =>
          rw [hfind] at hq2
          have hq := hq2
          have hcv : cv ∈ g.verts := List.mem_of_find?_eq_some hfind
          rcases hg.outReg cv hcv q hq with ⟨b, hb, hbe⟩
          exact List.mem_cons_of_mem _ (List.mem_map.2 ⟨b, hb, by rw [hbe]⟩)

theorem closed_length_le {g : Graph V} {closedL : List (Option Nat × Item)}
    (hnd : (closedL.map Prod.fst).Nodup)
    (hsub : ∀ k ∈ closedL.map Prod.fst, k ∈ keySet g) :
    closedL.length ≤ g.verts.length + 1 := by
  have h1 : closedL.length = (closedL.map Prod.fst).length :=
    (List.length_map _ _).symm
  have h2 : (closedL.map Prod.fst).length = (closedL.map Prod.fst).toFinset.card :=
    (List.toFinset_card_of_nodup hnd).symm
  have h3 : (closedL.map Prod.fst).toFinset ⊆ (keySet g).toFinset := by
    intro a ha
    rw [List.mem_toFinset] at ha ⊢
    exact hsub a ha
  have h4 := Finset.card_le_card h3
  have h5 := List.toFinset_card_le (keySet g)
  have h6 : (keySet g).length = g.verts.length + 1 := by
    simp [keySet]
  omega

theorem astarLoop_total {g : Graph V} (hg : GInv g) (endV : Option Nat)
    (endKey : String) (h : String → String → Int) :
    ∀ (fuel : Nat) (queue : List Item) (openL closedL : List (Option Nat × Item)),
      LoopInv g queue openL closedL →
      g.verts.length + 2 ≤ fuel + closedL.length →
      (astarLoop g endV endKey h fuel queue openL closedL).isSome = true := by
  intro fuel
  induction fuel with
  | zero =>
      intro queue openL closedL hinv hle
      exfalso
      have := closed_length_le hinv.cNodup hinv.cSub
      omega
  | succ fuel ih =>
      intro queue openL closedL hinv hle
      rw [astarLoop_succ]
      cases hpop : heapPop queue with
      | none => rfl
      | some pr =>
          obtain ⟨it, q1⟩ := pr
          have hqp : queue.Perm (it :: q1) := heapPop_perm hpop
          have hmemit : it ∈ queue := hqp.mem_iff.2 (List.mem_cons_self _ _)
          have hmem2 : it ∈ openL.map Prod.snd := hinv.qPerm.mem_iff.1 hmemit
          rcases List.mem_map.1 hmem2 with ⟨p, hp, hp2⟩
          have hp1 : p.1 = it.v := by
            have hk := hinv.oKeys p hp
            rw [hp2] at hk
            exact hk.symm
          have hpmem : (it.v, it) ∈ openL := by
            have hpe : p = (it.v, it) := by
              rcases p with ⟨a, b⟩
              simp_all
            rwa [hpe] at hp
          have holo : olookup openL it.v = some it := olookup_of_mem hinv.oNodup hpmem
          by_cases hend : (it.v == endV) = true
          · simp only [holo, hend, if_true]
            rfl
          · have hend' : (it.v == endV) = false := by rwa [Bool.not_eq_true] at hend
            simp only [holo, hend', if_false]
            obtain ⟨A, B, hsplit, hA, hB⟩ := assoc_split hinv.oNodup hpmem
            have hodel : odel openL it.v = A ++ B := by
              rw [hsplit]
              exact odel_eq_of_split hA hB
            have hmid : (openL.map Prod.snd).Perm (it :: (A ++ B).map Prod.snd) := by
              rw [hsplit]
              simp only [List.map_append, List.map_cons]
              exact List.perm_middle
            have hq1 : q1.Perm ((odel openL it.v).map Prod.snd) := by
              rw [hodel]
              exact (hqp.symm.trans (hinv.qPerm.trans hmid)).cons_inv
            have hstart : StInv g ((it.v, it) :: closedL) (q1, odel openL it.v) := by
              refine ⟨hq1, ?_, ?_, ?_, ?_⟩
              · intro r hr
                exact hinv.oKeys r (mem_odel hr).1
              · have hsl : ((odel openL it.v).map Prod.fst).Sublist (openL.map Prod.fst) :=
                  List.Sublist.map _ (List.filter_sublist _)
                exact hinv.oNodup.sublist hsl
              · intro r hr
                rcases mem_odel hr with ⟨hro, hrne⟩
                intro hmem
                rw [List.map_cons] at hmem
                rcases List.mem_cons.1 hmem with he | hm
                · exact hrne he
                · exact hinv.disj r hro hm
              · intro r hr
                exact hinv.oSub r (mem_odel hr).1
            have hstep := @foldl_expandStep_stinv V g endKey h it.v
              it.distanceFromStart ((it.v, it) :: closedL) (g.outgoingOf it.v)
              (q1, odel openL it.v) hstart (outgoingOf_keySet hg it.v)
            have hcn : (((it.v, it) :: closedL).map Prod.fst).Nodup := by
              rw [List.map_cons]
              exact List.nodup_cons.2 ⟨hinv.disj (it.v, it) hpmem, hinv.cNodup⟩
            have hcs : ∀ k ∈ ((it.v, it) :: closedL).map Prod.fst, k ∈ keySet g := by
              intro k hk
              rw [List.map_cons] at hk
              rcases List.mem_cons.1 hk with rfl | hm
              · exact hinv.oSub (it.v, it) hpmem
              · exact hinv.cSub k hm
            refine ih _ _ _
              ⟨hstep.qPerm, hstep.oKeys, hstep.oNodup, hstep.disj, hcn, hcs, hstep.oSub⟩ ?_
            simp only [List.length_cons]
            omega

/-- C6: `ShortestPathWithHeuristic` terminates on every finite graph the
program can build, for every pair of keys and every heuristic, admissible
or not: each popped vertex moves to the closed set, closed vertices are
never re-opened, and the closed keys are distinct members of the graph's
key set, so the loop runs at most `|V| + 2` iterations — with that much
fuel the model never runs out (and never reaches the nil-dereference
branch). -/
theorem Graph.astar_terminates (g : Graph V) (hg : Reachable g)
    (startKey endKey : String) (h : String → String → Int) :
    (g.astarRun startKey endKey h).isSome = true := by
  have hginv := reachable_ginv hg
  unfold Graph.astarRun
  refine astarLoop_total hginv ((g.getV endKey).map (fun v => v.id)) endKey h
    (g.verts.length + 2) _ _ _ ?_ (by omega)
  refine ⟨?_, ?_, ?_, ?_, ?_, ?_, ?_⟩
  · exact heapPush_perm [] _
  · intro p hp
    rcases List.mem_singleton.1 hp with rfl
    rfl
  · simp
  · intro p _ hc
    cases hc
  · simp
  · intro k hk
    cases hk
  · intro p hp
    rcases List.mem_singleton.1 hp with rfl
    cases hv : g.getV startKey with
    | none =>
        unfold keySet
        exact List.mem_cons_self _ _
    | some v =>
        unfold keySet
        exact List.mem_cons_of_mem _
          (List.mem_map.2 ⟨v, getV_mem hv, rfl⟩)

/-- Witness for C6 at the example graph (a query with no path, so the
loop drains the whole open set before stopping). -/
theorem Graph.astar_terminates_witness :
    (exampleGraph.astarRun "1" "4" (fun _ _ => 0)).isSome = true :=
  Graph.astar_terminates exampleGraph exampleGraph_reachable "1" "4" (fun _ _ => 0)
